import Mathlib

/-! # `scripts/area.c`: a left Riemann sum partitioned over processes

A shallow embedding of `area.c` and the properties proved about it.

Modelling conventions

* C `int` values are `Int`; `/` and `%` on `int` are the truncating
  `Int.tdiv` and `Int.tmod`.  Lemma `partition_values_in_range` shows that for
  `0 ≤ NUMBER_OF_RECTANGLES`, `1 ≤ NUMBER_OF_PROCESSES` and a rank inside the
  process group every integer the set-up block computes lies between `0` and
  `NUMBER_OF_RECTANGLES`, so 32-bit wrap-around never comes into play there.
* C `double` values are exact rationals (`ℚ`): the development speaks about the
  mathematical value of the sums, not about rounding, and a number printed
  with `%f` is recorded as its value.
* The block `our_areas` is a list of cells; a store or a read outside of it
  makes the run `none`.
* The build flags `MPI` and `SHOW_RESULTS` are fields of `Build`.  The thread
  team of the `OPENMP` build is not modelled: the embedding is that of one
  thread per process (`MY_THREAD_NUM = 0`), which is also what the guards
  `1 % OUR_NUMBER_OF_THREADS` and `2 % OUR_NUMBER_OF_THREADS` select, since
  `OUR_NUMBER_OF_THREADS` keeps its initial value `1`.
* The library functions are taken from their documentation: `getopt` for the
  option string of line 69, in either of its two orderings (the one of POSIX,
  which stops at the first operand, and the permuting one of the GNU library,
  which passes operands over), `MPI_Reduce` with `MPI_SUM` as the sum of the
  contributions delivered to the root; `atoi`, `atof` and the ordering of
  `getopt` are parameters (`Libc`).
* Lines 92-93 (`argc -= optind; argv += optind;`) change nothing that is read
  afterwards and are left out.
-/

namespace Area

/-! ## The set-up block (lines 104-128) -/

/-- Line 50: `OUR_NUMBER_OF_THREADS = 1`; the program never assigns it again. -/
def OUR_NUMBER_OF_THREADS : Int := 1

/-- Line 51: `MY_THREAD_NUM = 0` (the only thread of the process). -/
def MY_THREAD_NUM : Int := 0

/-- Lines 112-121: the number of rectangles for which the process is
responsible.  When the guard fails the variable keeps its initial value `10`
(line 50). -/
def OUR_NUMBER_OF_RECTANGLES (NUMBER_OF_RECTANGLES NUMBER_OF_PROCESSES OUR_RANK : Int) : Int :=
  if MY_THREAD_NUM = Int.tmod 1 OUR_NUMBER_OF_THREADS then
    let our := Int.tdiv NUMBER_OF_RECTANGLES NUMBER_OF_PROCESSES
    if OUR_RANK = NUMBER_OF_PROCESSES - 1 then
      our + Int.tmod NUMBER_OF_RECTANGLES NUMBER_OF_PROCESSES
    else our
  else 10

/-- The integer subexpression `OUR_RANK * (NUMBER_OF_RECTANGLES / NUMBER_OF_PROCESSES)`
of line 126. -/
def rankOffset (NUMBER_OF_RECTANGLES NUMBER_OF_PROCESSES OUR_RANK : Int) : Int :=
  OUR_RANK * Int.tdiv NUMBER_OF_RECTANGLES NUMBER_OF_PROCESSES

/-- Lines 104-111: the width of one rectangle, `WIDTH / NUMBER_OF_RECTANGLES`
with `WIDTH = X_RIGHT - X_LEFT`.  When the guard fails the variable keeps its
initial value `0.0` (line 54).  For `NUMBER_OF_RECTANGLES = 0` the C division
yields an infinity or a NaN where this model yields `0`; no loop body runs in
that case, so the value is never used. -/
def RECTANGLE_WIDTH (X_LEFT X_RIGHT : ℚ) (NUMBER_OF_RECTANGLES : Int) : ℚ :=
  if MY_THREAD_NUM = 0 then
    let WIDTH := X_RIGHT - X_LEFT
    WIDTH / (NUMBER_OF_RECTANGLES : ℚ)
  else 0

/-- Lines 122-128: the left x-boundary of the process,
`(OUR_RANK * (NUMBER_OF_RECTANGLES / NUMBER_OF_PROCESSES)) + X_LEFT`: an `int`
product converted to `double` and added to `X_LEFT`.  When the guard fails the
variable keeps its initial value `0.0` (line 53). -/
def OUR_X_LEFT (X_LEFT : ℚ) (NUMBER_OF_RECTANGLES NUMBER_OF_PROCESSES OUR_RANK : Int) : ℚ :=
  if MY_THREAD_NUM = Int.tmod 2 OUR_NUMBER_OF_THREADS then
    ((rankOffset NUMBER_OF_RECTANGLES NUMBER_OF_PROCESSES OUR_RANK : Int) : ℚ) + X_LEFT
  else 0

/-! ## The integrand and the two loops (lines 39-42, 136-156) -/

/-- Lines 39-42: `double FUNC(double x) { return x * x; }`. -/
def FUNC (x : ℚ) : ℚ := x * x

/-- Line 96: `malloc(NUMBER_OF_RECTANGLES * sizeof(double))`: a block of
`NUMBER_OF_RECTANGLES` cells whose contents are whatever the heap held
(`heap i` in cell `i`).  Allocation is taken to succeed; for a count of zero
or below the block has no cell. -/
def malloc (NUMBER_OF_RECTANGLES : Int) (heap : Nat → ℚ) : List ℚ :=
  (List.range NUMBER_OF_RECTANGLES.toNat).map heap

/-- The assignment `our_areas[i] = v`; `none` when `i` is outside the block. -/
def store (our_areas : List ℚ) (i : Nat) (v : ℚ) : Option (List ℚ) :=
  if i < our_areas.length then some (our_areas.set i v) else none

/-- The read `our_areas[i]`; `none` when `i` is outside the block. -/
def load (our_areas : List ℚ) (i : Nat) : Option ℚ :=
  our_areas[i]?

/-- Lines 140-148: the body of the rectangle loop for one value of
`my_current_rectangle_id`. -/
def rectangleBody (OUR_X_LEFT RECTANGLE_WIDTH : ℚ) (our_areas : List ℚ)
    (my_current_rectangle_id : Nat) : Option (List ℚ) :=
  let my_current_rectangle_left :=
    OUR_X_LEFT + ((my_current_rectangle_id : Int) : ℚ) * RECTANGLE_WIDTH
  let my_current_rectangle_height := FUNC my_current_rectangle_left
  store our_areas my_current_rectangle_id (RECTANGLE_WIDTH * my_current_rectangle_height)

/-- Lines 136-149: `for (id = 0; id < OUR_NUMBER_OF_RECTANGLES; id++)`.  The
loop runs its body for `id = 0, 1, ...` below the count, and not at all when
the count is zero or negative. -/
def rectangleLoop (OUR_X_LEFT RECTANGLE_WIDTH : ℚ) (OUR_NUMBER_OF_RECTANGLES : Int)
    (our_areas : List ℚ) : Option (List ℚ) :=
  (List.range OUR_NUMBER_OF_RECTANGLES.toNat).foldlM
    (rectangleBody OUR_X_LEFT RECTANGLE_WIDTH) our_areas

/-- Line 155: `our_total_sum += our_areas[my_current_rectangle_id]`. -/
def sumBody (our_areas : List ℚ) (our_total_sum : ℚ) (my_current_rectangle_id : Nat) :
    Option ℚ :=
  (load our_areas my_current_rectangle_id).map (fun a => our_total_sum + a)

/-- Lines 152-156: the summation loop, started from `our_total_sum = 0.0`. -/
def sumLoop (OUR_NUMBER_OF_RECTANGLES : Int) (our_areas : List ℚ) : Option ℚ :=
  (List.range OUR_NUMBER_OF_RECTANGLES.toNat).foldlM (sumBody our_areas) 0

/-- Lines 95-156 for one process: the value of `our_total_sum` when the
summation loop is left, `none` if a loop touched a cell outside `our_areas`. -/
def our_total_sum (X_LEFT X_RIGHT : ℚ) (NUMBER_OF_RECTANGLES NUMBER_OF_PROCESSES OUR_RANK : Int)
    (heap : Nat → ℚ) : Option ℚ :=
  let our_areas := malloc NUMBER_OF_RECTANGLES heap
  let count := OUR_NUMBER_OF_RECTANGLES NUMBER_OF_RECTANGLES NUMBER_OF_PROCESSES OUR_RANK
  (rectangleLoop (OUR_X_LEFT X_LEFT NUMBER_OF_RECTANGLES NUMBER_OF_PROCESSES OUR_RANK)
      (RECTANGLE_WIDTH X_LEFT X_RIGHT NUMBER_OF_RECTANGLES) count our_areas).bind
    (sumLoop count)

/-! ## Build flags, the process group and the reduction (lines 61-66, 158-170) -/

/-- The preprocessor symbols the program tests (`OPENMP` apart). -/
structure Build where
  MPI : Bool
  SHOW_RESULTS : Bool
  deriving DecidableEq, Repr

/-- What `MPI_Comm_rank` and `MPI_Comm_size` report to a process. -/
structure Comm where
  rank : Int
  size : Int
  deriving DecidableEq, Repr

/-- Lines 50, 64: `OUR_RANK` is `0` unless the `MPI` build reads it from the
communicator. -/
def OUR_RANK (b : Build) (w : Comm) : Int := if b.MPI then w.rank else 0

/-- Lines 51, 65: `NUMBER_OF_PROCESSES` is `1` unless the `MPI` build reads it
from the communicator. -/
def NUMBER_OF_PROCESSES (b : Build) (w : Comm) : Int := if b.MPI then w.size else 1

/-- Lines 160-161: `MPI_Reduce(&our_total_sum, &the_total_sum, 1, MPI_DOUBLE,
MPI_SUM, 0, MPI_COMM_WORLD)` as seen by the process of rank `rank`:
the root (rank `0`) receives the sum of the contributions of the ranks
`0 .. size - 1`; on every other rank the receive variable keeps the value
`recv` it had.  `none` when a contributing process did not reach the call. -/
def MPI_Reduce_SUM (contribution : Int → Option ℚ) (size rank : Int) (recv : ℚ) : Option ℚ :=
  if rank = 0 then
    (List.range size.toNat).foldlM
      (fun (acc : ℚ) (r : Nat) => (contribution (r : Int)).map (fun c => acc + c)) 0
  else (contribution rank).map (fun _ => recv)

/-- Lines 158-164: the value of `the_total_sum` after the reduction.  Every
process of the group runs the same program on the same parameters;
`heap r` is the initial content of the block `malloc` returns at rank `r`.
Without `MPI` the variable is a copy of `our_total_sum` (line 163). -/
def the_total_sum (b : Build) (w : Comm) (X_LEFT X_RIGHT : ℚ) (NUMBER_OF_RECTANGLES : Int)
    (heap : Int → Nat → ℚ) : Option ℚ :=
  let P := NUMBER_OF_PROCESSES b w
  let rank := OUR_RANK b w
  if b.MPI then
    MPI_Reduce_SUM
      (fun r => our_total_sum X_LEFT X_RIGHT NUMBER_OF_RECTANGLES P r (heap r)) P rank 0
  else
    our_total_sum X_LEFT X_RIGHT NUMBER_OF_RECTANGLES P rank (heap rank)

/-! ## Command line parsing (lines 68-93) -/

/-- What one call of `getopt` hands back. -/
inductive GetoptResult where
  /-- An option character of the option string, with `optarg`. -/
  | opt (c : Char) (optarg : String)
  /-- The character `'?'`: an unknown option character or a missing argument. -/
  | unknown
  /-- The value `-1`: no option is left. -/
  | done
  deriving DecidableEq, Repr

/-- The option characters of the option string `"n:l:r:"` of line 69; each is
followed by a colon there, so each takes an argument. -/
def optionChars : List Char := ['n', 'l', 'r']

/-- An operand: an element of `argv` that does not begin with `-`, or is
exactly `-`. -/
def isOperand (a : String) : Bool :=
  match a.toList with
  | '-' :: _ :: _ => false
  | _ => true

/-- The number of operands a list of elements begins with. -/
def skipOperands : List String → Nat
  | [] => 0
  | a :: rest => if isOperand a then skipOperands rest + 1 else 0

/-- The scan `getopt(argc, argv, "n:l:r:")` makes of the element at position
`optind` of `argv`; the second component is the position after it.

* `argv[optind]` is absent, does not begin with `-`, or is exactly `-`:
  `-1`, position unchanged.
* `argv[optind]` is `--`: `-1`, the position moves past it.
* the character after `-` is not in the option string: `'?'`.
* it is, and more characters follow in the same element: they are `optarg`.
* it is, and the element ends there: the next element is `optarg`; when there
  is none, `'?'`.

Since every option of the string takes an argument, a recognised option always
uses up its element, so the next call starts at an element again.  After
`'?'` the program exits without another call, and the model leaves the
position where the scan stood. -/
def getoptAt (argv : List String) (optind : Nat) : GetoptResult × Nat :=
  match argv[optind]? with
  | none => (.done, optind)
  | some a =>
    match a.toList with
    | '-' :: c :: rest =>
      if c = '-' ∧ rest = [] then (.done, optind + 1)
      else if c ∈ optionChars then
        if rest ≠ [] then (.opt c (String.mk rest), optind + 1)
        else
          match argv[optind + 1]? with
          | some b => (.opt c b, optind + 2)
          | none => (.unknown, optind + 1)
      else (.unknown, optind)
    | _ => (.done, optind)

/-- The library function `getopt(argc, argv, "n:l:r:")` in its two orderings.

* `permute = false`, the ordering of POSIX (also that of the GNU library when
  `POSIXLY_CORRECT` is set): the element at `optind` is scanned, so the first
  operand ends the options.
* `permute = true`, the default of the GNU library: the operands that come
  next are passed over and the first element after them is scanned, so an
  option is found wherever it stands before `--`.

The GNU library also moves the operands it passed over behind the options in
`argv`; it never moves an element that is still to be scanned, so what the
calls hand back is what the scan of the elements in their original order
yields.  The position kept here is the one in that original order; the
program reads neither `optind` nor `argv` after the loop (lines 92-93 apart).
The diagnostic `getopt` itself writes to standard error with `'?'` is no part
of the model. -/
def getopt (permute : Bool) (argv : List String) (optind : Nat) : GetoptResult × Nat :=
  if permute then getoptAt argv (optind + skipOperands (argv.drop optind))
  else getoptAt argv optind

/-- The C library as far as the program depends on it: the conversions `atoi`
and `atof`, which the program applies to option arguments without checking
them, and the ordering of `getopt`. -/
structure Libc where
  atoi : String → Int
  atof : String → ℚ
  permute : Bool

/-- The three variables the option loop assigns. -/
structure Params where
  NUMBER_OF_RECTANGLES : Int
  X_LEFT : ℚ
  X_RIGHT : ℚ
  deriving DecidableEq, Repr

/-- Lines 50-53: `NUMBER_OF_RECTANGLES = 10`, `X_LEFT = 0.0`, `X_RIGHT = 10.0`. -/
def defaults : Params :=
  { NUMBER_OF_RECTANGLES := 10, X_LEFT := 0, X_RIGHT := 10 }

/-- How the option loop ends. -/
inductive ParseResult where
  /-- The call `getopt` returned `-1` and the loop was left with these values. -/
  | parsed (p : Params)
  /-- The `case '?': default:` branch ran: usage message and `exit(-1)`. -/
  | usageExit
  /-- The iteration bound of the model was used up (lemma
  `parseLoop_fuel_suffices`: with `argv.length` iterations it never is). -/
  | outOfFuel
  deriving DecidableEq, Repr

/-- Lines 71-90: the `switch (c)` on an option character returned by `getopt`. -/
def switchOpt (libc : Libc) (c : Char) (optarg : String) (p : Params) : Option Params :=
  if c = 'n' then some { p with NUMBER_OF_RECTANGLES := libc.atoi optarg }
  else if c = 'l' then some { p with X_LEFT := libc.atof optarg }
  else if c = 'r' then some { p with X_RIGHT := libc.atof optarg }
  else none

/-- Lines 69-91: `while ((c = getopt(argc, argv, "n:l:r:")) != -1) switch (c) ...`.
The first argument bounds the number of iterations. -/
def parseLoop (libc : Libc) (argv : List String) : Nat → Nat → Params → ParseResult
  | fuel, optind, p =>
    match getopt libc.permute argv optind with
    | (.done, _) => .parsed p
    | (.unknown, _) => .usageExit
    | (.opt c optarg, optind') =>
      match switchOpt libc c optarg p with
      | none => .usageExit
      | some p' =>
        match fuel with
        | 0 => .outOfFuel
        | fuel' + 1 => parseLoop libc argv fuel' optind' p'

/-- Lines 85, 87: the usage line, with `argv[0]` for `%s`. -/
def usageMessage (b : Build) (argv : List String) : String :=
  if b.MPI then
    "Usage: mpirun -np NUMBER_OF_PROCESSES " ++ argv.headD "" ++
      " [-n NUMBER_OF_RECTANGLES] [-l X_LEFT] [-r X_RIGHT]\n"
  else
    "Usage: " ++ argv.headD "" ++ " [-n NUMBER_OF_RECTANGLES] [-l X_LEFT] [-r X_RIGHT]\n"

/-! ## The program -/

/-- What a run of one process leaves behind: the numbers printed on standard
output with `printf("%f\n", ...)`, the lines the program itself wrote to
standard error, and the value passed to `exit` or returned by `main`. -/
structure Outcome where
  stdout : List ℚ
  stderr : List String
  exitCode : Int
  deriving DecidableEq, Repr

/-- The exit status the parent sees: the low eight bits of the exit code. -/
def exitStatus (exitCode : Int) : Int := exitCode % 256

/-- Lines 47-182: `main` as run by the process `w` of a group, all of whose
processes are started on the same `argv`.  `none` when the process makes an
out-of-bounds access or the iteration bound of the option loop is used up. -/
def main (b : Build) (libc : Libc) (w : Comm) (argv : List String) (heap : Int → Nat → ℚ) :
    Option Outcome :=
  match parseLoop libc argv argv.length 1 defaults with
  | .outOfFuel => none
  | .usageExit => some { stdout := [], stderr := [usageMessage b argv], exitCode := -1 }
  | .parsed p =>
    (the_total_sum b w p.X_LEFT p.X_RIGHT p.NUMBER_OF_RECTANGLES heap).map fun total =>
      { stdout := if b.SHOW_RESULTS = true ∧ OUR_RANK b w = 0 then [total] else [],
        stderr := [],
        exitCode := 0 }

/-! ## Well-formed options, for stating what the option loop accepts -/

/-- An option as it is written on the command line: the option character and
its argument in two elements (`-n 5`) or in one (`-n5`). -/
inductive OptArg where
  | separate (c : Char) (value : String)
  | attached (c : Char) (value : String)
  deriving DecidableEq, Repr

/-- The option character is one of `n`, `l`, `r`; an argument written in the
same element is not empty (an empty one would make `getopt` take the next
element). -/
def OptArg.wellFormed : OptArg → Prop
  | .separate c _ => c ∈ optionChars
  | .attached c value => c ∈ optionChars ∧ value.toList ≠ []

instance (o : OptArg) : Decidable o.wellFormed := by
  cases o <;> unfold OptArg.wellFormed <;> infer_instance

/-- The option character of an option. -/
def OptArg.flag : OptArg → Char
  | .separate c _ => c
  | .attached c _ => c

/-- The argument of an option, the string `getopt` hands over as `optarg`. -/
def OptArg.value : OptArg → String
  | .separate _ value => value
  | .attached _ value => value

/-- The elements of `argv` an option is written as. -/
def OptArg.render : OptArg → List String
  | .separate c value => [String.mk ['-', c], value]
  | .attached c value => [String.mk ('-' :: c :: value.toList)]

/-- The assignment the `switch` of lines 71-90 makes for an option; no change
for a character outside `n`, `l`, `r`. -/
def OptArg.assign (libc : Libc) (p : Params) : OptArg → Params
  | .separate c value => (switchOpt libc c value p).getD p
  | .attached c value => (switchOpt libc c value p).getD p

/-- What may stand on the command line before the option loop is through: a
well-formed option, or an operand. -/
inductive ArgItem where
  | option (o : OptArg)
  | operand (a : String)
  deriving DecidableEq, Repr

/-- An option is to be well-formed; an operand is passed over only by the
permuting `getopt`, so under the ordering of POSIX no operand may stand before
the element the loop is to reach. -/
def ArgItem.wellFormed (permute : Bool) : ArgItem → Prop
  | .option o => o.wellFormed
  | .operand a => permute = true ∧ isOperand a = true

instance (permute : Bool) (it : ArgItem) : Decidable (it.wellFormed permute) := by
  cases it <;> unfold ArgItem.wellFormed <;> infer_instance

/-- The elements of `argv` an item is written as. -/
def ArgItem.render : ArgItem → List String
  | .option o => o.render
  | .operand a => [a]

/-- The assignment made for an item: that of the option, none for an
operand. -/
def ArgItem.assign (libc : Libc) (p : Params) : ArgItem → Params
  | .option o => o.assign libc p
  | .operand _ => p

/-! ## Reference quantities of the specification -/

/-- The left Riemann sum in the words of the specification: `n` rectangles of
equal width `w = (right - left) / n` on `[left, right]`, rectangle `i` of
height `f (left + i * w)`. -/
def leftRiemannSum (f : ℚ → ℚ) (left right : ℚ) (n : Nat) : ℚ :=
  ∑ i ∈ Finset.range n,
    (right - left) / (n : ℚ) * f (left + (i : ℚ) * ((right - left) / (n : ℚ)))

/-- The sum of the areas of the rectangles a process evaluates: rectangle `i`
of the process of rank `r` is sampled at `OUR_X_LEFT + i * RECTANGLE_WIDTH`. -/
def rankSum (X_LEFT X_RIGHT : ℚ) (N P r : Int) : ℚ :=
  ∑ i ∈ Finset.range (OUR_NUMBER_OF_RECTANGLES N P r).toNat,
    RECTANGLE_WIDTH X_LEFT X_RIGHT N *
      FUNC (OUR_X_LEFT X_LEFT N P r + ((i : Int) : ℚ) * RECTANGLE_WIDTH X_LEFT X_RIGHT N)

/-! ## Lemmas on the integer partition -/

theorem tdiv_eq_ediv_of_nonneg {a b : Int} (ha : 0 ≤ a) (hb : 0 ≤ b) :
    Int.tdiv a b = a / b :=
  Int.tdiv_eq_ediv ha hb

theorem tmod_eq_emod_of_nonneg {a b : Int} (ha : 0 ≤ a) (hb : 0 ≤ b) :
    Int.tmod a b = a % b :=
  Int.tmod_eq_emod ha hb

theorem OUR_NUMBER_OF_RECTANGLES_eq (N P r : Int) :
    OUR_NUMBER_OF_RECTANGLES N P r =
      if r = P - 1 then Int.tdiv N P + Int.tmod N P else Int.tdiv N P := by
  simp [OUR_NUMBER_OF_RECTANGLES, MY_THREAD_NUM, OUR_NUMBER_OF_THREADS]

/-- With a non-negative total and at least one process, a rank below the last
gets the quotient and the last rank gets quotient plus remainder. -/
theorem share_of_nonneg {N P : Int} (hN : 0 ≤ N) (hP : 1 ≤ P) (r : Int) :
    OUR_NUMBER_OF_RECTANGLES N P r = if r = P - 1 then N / P + N % P else N / P := by
  rw [OUR_NUMBER_OF_RECTANGLES_eq, tdiv_eq_ediv_of_nonneg hN (by omega),
    tmod_eq_emod_of_nonneg hN (by omega)]

/-- The shares of the ranks below `k` add up to `k` quotients, as long as the
last rank is not among them. -/
theorem sum_shares_below {N P : Int} (hN : 0 ≤ N) (hP : 1 ≤ P) (k : Nat) (hk : (k : Int) ≤ P - 1) :
    ∑ r ∈ Finset.range k, OUR_NUMBER_OF_RECTANGLES N P (r : Int) = (k : Int) * (N / P) := by
  induction k with
  | zero => simp
  | succ k ih =>
    have hne : ((k : Nat) : Int) ≠ P - 1 := by push_cast at hk; omega
    rw [Finset.sum_range_succ, ih (by push_cast at hk ⊢; omega), share_of_nonneg hN hP,
      if_neg hne]
    push_cast
    ring

/-- The shares of all ranks add up to the total. -/
theorem sum_shares {N P : Int} (hN : 0 ≤ N) (hP : 1 ≤ P) :
    ∑ r ∈ Finset.range P.toNat, OUR_NUMBER_OF_RECTANGLES N P (r : Int) = N := by
  obtain ⟨k, hk⟩ : ∃ k : Nat, P = (k : Int) + 1 := ⟨(P - 1).toNat, by omega⟩
  have hto : P.toNat = k + 1 := by omega
  rw [hto, Finset.sum_range_succ, sum_shares_below hN hP k (by omega), share_of_nonneg hN hP,
    if_pos (by omega)]
  have h := Int.ediv_add_emod N P
  have : (k : Int) * (N / P) + N / P = P * (N / P) := by rw [hk]; ring
  linarith

/-- Every integer the set-up block computes lies between `0` and the total,
so none of them leaves the range of a C `int` when the total is one. -/
theorem partition_values_in_range {N P r : Int} (hN : 0 ≤ N) (hP : 1 ≤ P) (h0 : 0 ≤ r)
    (hr : r < P) :
    (0 ≤ Int.tdiv N P ∧ Int.tdiv N P ≤ N) ∧ (0 ≤ Int.tmod N P ∧ Int.tmod N P ≤ N) ∧
    (0 ≤ OUR_NUMBER_OF_RECTANGLES N P r ∧ OUR_NUMBER_OF_RECTANGLES N P r ≤ N) ∧
    (0 ≤ rankOffset N P r ∧ rankOffset N P r ≤ N) := by
  have hq0 : 0 ≤ N / P := Int.ediv_nonneg hN (by omega)
  have hm0 : 0 ≤ N % P := Int.emod_nonneg N (by omega)
  have hdm := Int.ediv_add_emod N P
  have hmul : N / P ≤ P * (N / P) := by nlinarith
  have hoff : r * (N / P) ≤ P * (N / P) := by nlinarith
  have hoff0 : 0 ≤ r * (N / P) := by positivity
  rw [share_of_nonneg hN hP, rankOffset, tdiv_eq_ediv_of_nonneg hN (by omega),
    tmod_eq_emod_of_nonneg hN (by omega)]
  refine ⟨⟨hq0, by omega⟩, ⟨hm0, by omega⟩, ?_, ⟨hoff0, by omega⟩⟩
  split_ifs <;> constructor <;> omega

/-! ## Lemmas on the two loops -/

/-- The rectangle loop, run for the indices below `k` on a block of at least
`k` cells, succeeds; it leaves the area of rectangle `i` in every cell `i < k`
and the other cells as they were. -/
theorem rectangle_fold (X W : ℚ) (k : Nat) (buf : List ℚ) (hk : k ≤ buf.length) :
    ∃ out, (List.range k).foldlM (rectangleBody X W) buf = some out ∧
      out.length = buf.length ∧
      (∀ i, i < k → out[i]? = some (W * FUNC (X + ((i : Int) : ℚ) * W))) ∧
      (∀ i, k ≤ i → out[i]? = buf[i]?) := by
  induction k with
  | zero => exact ⟨buf, by simp⟩
  | succ k ih =>
    obtain ⟨mid, hrun, hlen, hlow, hhigh⟩ := ih (by omega)
    refine ⟨mid.set k (W * FUNC (X + ((k : Int) : ℚ) * W)), ?_, by simpa using hlen, ?_, ?_⟩
    · rw [List.range_succ, List.foldlM_append, hrun]
      have hlt : k < mid.length := by omega
      simp [rectangleBody, store, hlt]
    · intro i hi
      by_cases hik : i = k
      · subst hik
        have hlt : i < mid.length := by omega
        simp [List.getElem?_set, hlt]
      · have hne : k ≠ i := fun h => hik h.symm
        have := hlow i (by omega)
        simpa [List.getElem?_set, hne] using this
    · intro i hi
      have hne : k ≠ i := by omega
      have := hhigh i (by omega)
      simpa [List.getElem?_set, hne] using this

/-- The summation loop over a block whose first `k` cells hold `v 0, ...,
v (k - 1)` succeeds and returns their sum. -/
theorem sum_fold (buf : List ℚ) (v : Nat → ℚ) (k : Nat)
    (hv : ∀ i, i < k → buf[i]? = some (v i)) :
    (List.range k).foldlM (sumBody buf) 0 = some (∑ i ∈ Finset.range k, v i) := by
  induction k with
  | zero => simp
  | succ k ih =>
    rw [List.range_succ, List.foldlM_append, ih (fun i hi => hv i (by omega)),
      Finset.sum_range_succ]
    simp [sumBody, load, hv k (by omega)]

/-- The number of loop iterations of a process never exceeds the number of
cells allocated, whatever the sign of the total. -/
theorem count_le_cells (N P r : Int) (hP : 1 ≤ P) :
    (OUR_NUMBER_OF_RECTANGLES N P r).toNat ≤ N.toNat := by
  rw [OUR_NUMBER_OF_RECTANGLES_eq]
  have hdm := Int.tdiv_add_tmod N P
  rcases le_or_lt 0 N with hN | hN
  · have hq0 : 0 ≤ N / P := Int.ediv_nonneg hN (by omega)
    have hm0 : 0 ≤ N % P := Int.emod_nonneg N (by omega)
    rw [tdiv_eq_ediv_of_nonneg hN (by omega), tmod_eq_emod_of_nonneg hN (by omega)] at hdm ⊢
    have hmul : N / P ≤ P * (N / P) := by nlinarith
    split_ifs <;> omega
  · have hneg : Int.tdiv N P = -((-N) / P) := by
      have h := Int.neg_tdiv (-N) P
      rw [Int.neg_neg] at h
      rw [h, tdiv_eq_ediv_of_nonneg (by omega) (by omega)]
    have hq0 : 0 ≤ (-N) / P := Int.ediv_nonneg (by omega) (by omega)
    have hm0 : 0 ≤ (-N) % P := Int.emod_nonneg (-N) (by omega)
    have hdm' := Int.ediv_add_emod (-N) P
    rw [hneg] at hdm ⊢
    have hm : Int.tmod N P = -((-N) % P) := by
      have : P * -(-N / P) = -(P * (-N / P)) := by ring
      omega
    split_ifs <;> omega

/-- The sum a process computes: its loops stay inside the block, and
`our_total_sum` ends as the sum of the areas of its rectangles, whatever the
block held at first. -/
theorem our_total_sum_eq (L R : ℚ) (N P r : Int) (hP : 1 ≤ P) (heap : Nat → ℚ) :
    our_total_sum L R N P r heap = some (rankSum L R N P r) := by
  have hlen : (OUR_NUMBER_OF_RECTANGLES N P r).toNat ≤ (malloc N heap).length := by
    simpa [malloc] using count_le_cells N P r hP
  obtain ⟨out, hrun, -, hlow, -⟩ :=
    rectangle_fold (OUR_X_LEFT L N P r) (RECTANGLE_WIDTH L R N) _ _ hlen
  unfold our_total_sum rectangleLoop sumLoop
  simp only [hrun, Option.some_bind]
  exact sum_fold out _ _ hlow

/-! ## C1, C2: the partition of the rectangles over the ranks -/

/-- C1: for every total number of rectangles `N ≥ 1` and every number of
processes `P ≥ 1`, the per-process counts `OUR_NUMBER_OF_RECTANGLES` of the
ranks `0 .. P - 1` add up to exactly `N`. -/
theorem C1_shares_sum_to_total (N P : Int) (hN : 1 ≤ N) (hP : 1 ≤ P) :
    ∑ r ∈ Finset.range P.toNat, OUR_NUMBER_OF_RECTANGLES N P (r : Int) = N :=
  sum_shares (by omega) hP

/-- Witness of C1 at `N = 4`, `P = 3`. -/
theorem C1_shares_sum_to_total_witness :
    (1 : Int) ≤ 4 ∧ (1 : Int) ≤ 3 ∧
    ∑ r ∈ Finset.range (3 : Int).toNat, OUR_NUMBER_OF_RECTANGLES 4 3 (r : Int) = 4 :=
  ⟨by decide, by decide, C1_shares_sum_to_total 4 3 (by decide) (by decide)⟩

/-- C2: for `N ≥ 1`, `P ≥ 1` and a rank in `[0, P)`, the count of the rank is
the truncated quotient `N / P` (`Int.tdiv`) when the rank is not `P - 1`, and
that quotient plus the remainder `N % P` (`Int.tmod`) when it is; for `N = 4`,
`P = 3` the counts of the ranks `0, 1, 2` are `1, 1, 2`. -/
theorem C2_share_per_rank :
    (∀ N P r : Int, 1 ≤ N → 1 ≤ P → 0 ≤ r → r < P →
      (r ≠ P - 1 → OUR_NUMBER_OF_RECTANGLES N P r = Int.tdiv N P) ∧
      (r = P - 1 → OUR_NUMBER_OF_RECTANGLES N P r = Int.tdiv N P + Int.tmod N P)) ∧
    [(0 : Int), 1, 2].map (OUR_NUMBER_OF_RECTANGLES 4 3) = [1, 1, 2] := by
  refine ⟨?_, by decide⟩
  intro N P r _ _ _ _
  rw [OUR_NUMBER_OF_RECTANGLES_eq]
  exact ⟨fun h => if_neg h, fun h => if_pos h⟩

/-- Witness of C2 at `N = 7`, `P = 3`: rank `1` gets `2`, rank `2` gets `3`. -/
theorem C2_share_per_rank_witness :
    OUR_NUMBER_OF_RECTANGLES 7 3 1 = 2 ∧ OUR_NUMBER_OF_RECTANGLES 7 3 2 = 3 :=
  ⟨((C2_share_per_rank.1 7 3 1 (by decide) (by decide) (by decide) (by decide)).1
      (by decide)).trans (by decide),
   ((C2_share_per_rank.1 7 3 2 (by decide) (by decide) (by decide) (by decide)).2
      (by decide)).trans (by decide)⟩

/-! ## Lemmas on the sums -/

/-- Closed form of the sum of the areas of `k` rectangles of width `W` sampled
at `X, X + W, ...`. -/
theorem areas_closed_form (X W : ℚ) (k : Nat) :
    ∑ i ∈ Finset.range k, W * FUNC (X + ((i : Int) : ℚ) * W) =
      W * ((k : ℚ) * X ^ 2 + X * W * ((k : ℚ) * ((k : ℚ) - 1)) +
        W ^ 2 * (((k : ℚ) - 1) * (k : ℚ) * (2 * (k : ℚ) - 1) / 6)) := by
  induction k with
  | zero => simp
  | succ k ih =>
    rw [Finset.sum_range_succ, ih]
    simp only [FUNC]
    push_cast
    ring

theorem rankSum_closed_form (L R : ℚ) (N P r : Int) :
    rankSum L R N P r =
      RECTANGLE_WIDTH L R N *
        (((OUR_NUMBER_OF_RECTANGLES N P r).toNat : ℚ) * OUR_X_LEFT L N P r ^ 2 +
          OUR_X_LEFT L N P r * RECTANGLE_WIDTH L R N *
            (((OUR_NUMBER_OF_RECTANGLES N P r).toNat : ℚ) *
              (((OUR_NUMBER_OF_RECTANGLES N P r).toNat : ℚ) - 1)) +
          RECTANGLE_WIDTH L R N ^ 2 *
            ((((OUR_NUMBER_OF_RECTANGLES N P r).toNat : ℚ) - 1) *
              ((OUR_NUMBER_OF_RECTANGLES N P r).toNat : ℚ) *
              (2 * ((OUR_NUMBER_OF_RECTANGLES N P r).toNat : ℚ) - 1) / 6)) :=
  areas_closed_form _ _ _

/-- The reduction at the root over contributions that all arrived returns
their sum. -/
theorem reduce_fold (contribution : Int → Option ℚ) (c : Int → ℚ) (k : Nat)
    (hc : ∀ r : Nat, r < k → contribution (r : Int) = some (c (r : Int))) :
    (List.range k).foldlM
        (fun (acc : ℚ) (r : Nat) => (contribution (r : Int)).map (fun x => acc + x)) 0 =
      some (∑ r ∈ Finset.range k, c (r : Int)) := by
  induction k with
  | zero => simp
  | succ k ih =>
    rw [List.range_succ, List.foldlM_append, ih (fun r hr => hc r (by omega)),
      Finset.sum_range_succ]
    simp [hc k (by omega)]

/-- In the `MPI` build the root ends with the sum of the sums of all ranks. -/
theorem the_total_sum_root (b : Build) (w : Comm) (L R : ℚ) (N : Int) (heap : Int → Nat → ℚ)
    (hb : b.MPI = true) (hrank : w.rank = 0) (hsize : 1 ≤ w.size) :
    the_total_sum b w L R N heap =
      some (∑ r ∈ Finset.range w.size.toNat, rankSum L R N w.size (r : Int)) := by
  simp only [the_total_sum, NUMBER_OF_PROCESSES, OUR_RANK, hb, hrank, MPI_Reduce_SUM, if_true]
  exact reduce_fold (fun r => our_total_sum L R N w.size r (heap r))
    (fun r => rankSum L R N w.size r) _
    (fun r _ => our_total_sum_eq L R N w.size r hsize (heap r))

/-- In the `MPI` build a rank other than the root keeps `the_total_sum = 0.0`. -/
theorem the_total_sum_other (b : Build) (w : Comm) (L R : ℚ) (N : Int) (heap : Int → Nat → ℚ)
    (hb : b.MPI = true) (hrank : w.rank ≠ 0) (hsize : 1 ≤ w.size) :
    the_total_sum b w L R N heap = some 0 := by
  simp [the_total_sum, NUMBER_OF_PROCESSES, OUR_RANK, hb, hrank, MPI_Reduce_SUM,
    our_total_sum_eq L R N w.size w.rank hsize]

/-- Without `MPI` the total is the sum of the only process. -/
theorem the_total_sum_serial (b : Build) (w : Comm) (L R : ℚ) (N : Int) (heap : Int → Nat → ℚ)
    (hb : b.MPI = false) :
    the_total_sum b w L R N heap = some (rankSum L R N 1 0) := by
  simp [the_total_sum, NUMBER_OF_PROCESSES, OUR_RANK, hb,
    our_total_sum_eq L R N 1 0 (le_refl 1)]

/-- When the group has one process, of rank `0`, the total is the sum of that
process in either build. -/
theorem the_total_sum_single (b : Build) (w : Comm) (L R : ℚ) (N : Int) (heap : Int → Nat → ℚ)
    (hP : NUMBER_OF_PROCESSES b w = 1) (hr : OUR_RANK b w = 0) :
    the_total_sum b w L R N heap = some (rankSum L R N 1 0) := by
  cases hb : b.MPI with
  | false => exact the_total_sum_serial b w L R N heap hb
  | true =>
    have hsize : w.size = 1 := by simpa [NUMBER_OF_PROCESSES, hb] using hP
    have hrank : w.rank = 0 := by simpa [OUR_RANK, hb] using hr
    rw [the_total_sum_root b w L R N heap hb hrank (by omega), hsize]
    simp

/-- The sum of the only process of a group of one is the left Riemann sum of
`FUNC` over the whole domain. -/
theorem rankSum_single (L R : ℚ) (N : Int) :
    rankSum L R N 1 0 = leftRiemannSum FUNC L R N.toNat := by
  have hcount : OUR_NUMBER_OF_RECTANGLES N 1 0 = N := by
    simp [OUR_NUMBER_OF_RECTANGLES_eq, Int.tdiv_one, Int.tmod_one]
  have hleft : OUR_X_LEFT L N 1 0 = L := by
    simp [OUR_X_LEFT, rankOffset, MY_THREAD_NUM, OUR_NUMBER_OF_THREADS]
  unfold rankSum leftRiemannSum
  rw [hcount, hleft]
  rcases le_or_lt N 0 with hN | hN
  · have : N.toNat = 0 := by omega
    simp [this]
  · have hcast : ((N.toNat : Nat) : ℚ) = (N : ℚ) := by
      have : ((N.toNat : Nat) : Int) = N := Int.toNat_of_nonneg (by omega)
      exact_mod_cast this
    simp [RECTANGLE_WIDTH, MY_THREAD_NUM, hcast]

/-- What the code computes as left boundary: the rank's offset counted in
rectangles is added to `X_LEFT` as it is, without the factor
`RECTANGLE_WIDTH`. -/
theorem OUR_X_LEFT_eq (L : ℚ) (N P r : Int) :
    OUR_X_LEFT L N P r = L + (r : ℚ) * ((Int.tdiv N P : Int) : ℚ) := by
  simp [OUR_X_LEFT, rankOffset, MY_THREAD_NUM, OUR_NUMBER_OF_THREADS]
  ring

/-! ## C3, C4: the left boundary of a rank and the decomposition -/

/-- C3 (the code at the failing input): the header's own example
`-l 100.0 -r 200.0` with the default `10` rectangles, run by two processes.
The rectangles are `10` wide and rank `1` follows `5` of them, so its left
boundary is `100 + 1 * 5 * 10 = 150`; the code computes `1 * 5 + 100 = 105`. -/
theorem C3_left_boundary_misses_width :
    RECTANGLE_WIDTH 100 200 10 = 10 ∧
    Int.tdiv 10 2 = 5 ∧
    OUR_X_LEFT 100 10 2 1 = 105 ∧
    (100 : ℚ) + ((1 : Int) : ℚ) * ((Int.tdiv 10 2 : Int) : ℚ) * RECTANGLE_WIDTH 100 200 10 = 150 := by
  have h5 : Int.tdiv 10 2 = 5 := by decide
  refine ⟨by norm_num [RECTANGLE_WIDTH, MY_THREAD_NUM], h5, ?_, ?_⟩
  · rw [OUR_X_LEFT_eq, h5]; norm_num
  · rw [h5]; norm_num [RECTANGLE_WIDTH, MY_THREAD_NUM]

/-- C4 (the code at the failing input): `n = 1000` on the default domain
`[0, 10]`.  One process returns the left Riemann sum `332.8335`; with four
processes the root receives `2196858.2085`, because the ranks `1, 2, 3` start
at `250, 500, 750` instead of `2.5, 5, 7.5`. -/
theorem C4_decomposition_changes_total (heap : Int → Nat → ℚ) :
    the_total_sum ⟨true, true⟩ ⟨0, 1⟩ 0 10 1000 heap = some (665667 / 2000) ∧
    the_total_sum ⟨true, true⟩ ⟨0, 4⟩ 0 10 1000 heap = some (4393716417 / 2000) ∧
    ([0, 1, 2, 3] : List Int).map (OUR_X_LEFT 0 1000 4) = [0, 250, 500, 750] ∧
    (665667 / 2000 : ℚ) ≠ 4393716417 / 2000 := by
  have hq1 : Int.tdiv 1000 1 = 1000 := by decide
  have hm1 : Int.tmod 1000 1 = 0 := by decide
  have hq4 : Int.tdiv 1000 4 = 250 := by decide
  have hm4 : Int.tmod 1000 4 = 0 := by decide
  have t1000 : Int.toNat 1000 = 1000 := rfl
  have t250 : Int.toNat 250 = 250 := rfl
  have t4 : Int.toNat 4 = 4 := rfl
  refine ⟨?_, ?_, ?_, by norm_num⟩
  · rw [the_total_sum_root _ _ _ _ _ _ rfl rfl (by decide)]
    norm_num [Finset.sum_range_succ, rankSum_closed_form, OUR_NUMBER_OF_RECTANGLES_eq,
      OUR_X_LEFT_eq, RECTANGLE_WIDTH, MY_THREAD_NUM, hq1, hm1, t1000]
  · rw [the_total_sum_root _ _ _ _ _ _ rfl rfl (by decide)]
    norm_num [Finset.sum_range_succ, rankSum_closed_form, OUR_NUMBER_OF_RECTANGLES_eq,
      OUR_X_LEFT_eq, RECTANGLE_WIDTH, MY_THREAD_NUM, hq4, hm4, t250, t4]
  · norm_num [OUR_X_LEFT_eq, hq4]

/-! ## C5, C6, C7, C8: the sum of a single process -/

/-- The total of a single process is the left Riemann sum over the domain. -/
theorem single_process_total (b : Build) (w : Comm) (L R : ℚ) (N : Int)
    (heap : Int → Nat → ℚ) (hN : 1 ≤ N) (hP : NUMBER_OF_PROCESSES b w = 1)
    (hr : OUR_RANK b w = 0) :
    the_total_sum b w L R N heap =
      some (∑ i ∈ Finset.range N.toNat,
        (R - L) / (N : ℚ) * FUNC (L + (i : ℚ) * ((R - L) / (N : ℚ)))) := by
  have hcast : ((N.toNat : Nat) : ℚ) = (N : ℚ) := by
    have : ((N.toNat : Nat) : Int) = N := Int.toNat_of_nonneg (by omega)
    exact_mod_cast this
  rw [the_total_sum_single b w L R N heap hP hr, rankSum_single, leftRiemannSum, hcast]

/-- The total of a single process on the default domain `[0, 10]` with the
default `10` rectangles. -/
theorem default_total (b : Build) (w : Comm) (heap : Int → Nat → ℚ)
    (hP : NUMBER_OF_PROCESSES b w = 1) (hr : OUR_RANK b w = 0) :
    the_total_sum b w 0 10 10 heap = some 285 := by
  rw [single_process_total b w 0 10 10 heap (by decide) hP hr]
  have t10 : Int.toNat 10 = 10 := rfl
  norm_num [t10, Finset.sum_range_succ, FUNC]

/-- C5: for a single process (`NUMBER_OF_PROCESSES = 1`, `OUR_RANK = 0`), every
domain `[L, R]` and every `N ≥ 1`, the program reaches the end of the
reduction and `the_total_sum` is the left Riemann sum: the sum over
`i = 0 .. N - 1` of `w * FUNC (L + i * w)` with `w = (R - L) / N`. -/
theorem C5_single_process_left_riemann_sum (b : Build) (w : Comm) (L R : ℚ) (N : Int)
    (heap : Int → Nat → ℚ) (hN : 1 ≤ N) (hP : NUMBER_OF_PROCESSES b w = 1)
    (hr : OUR_RANK b w = 0) :
    the_total_sum b w L R N heap =
      some (∑ i ∈ Finset.range N.toNat,
        (R - L) / (N : ℚ) * FUNC (L + (i : ℚ) * ((R - L) / (N : ℚ)))) :=
  single_process_total b w L R N heap hN hP hr

/-- Witness of C5: the `MPI` build run as one process on `[0, 4]` with two
rectangles returns `2 * 0 + 2 * 4 = 8`. -/
theorem C5_single_process_left_riemann_sum_witness :
    (1 : Int) ≤ 2 ∧ NUMBER_OF_PROCESSES ⟨true, true⟩ ⟨0, 1⟩ = 1 ∧
    OUR_RANK ⟨true, true⟩ ⟨0, 1⟩ = 0 ∧
    the_total_sum ⟨true, true⟩ ⟨0, 1⟩ 0 4 2 (fun _ _ => 0) = some 8 :=
  ⟨by decide, by decide, by decide,
    (C5_single_process_left_riemann_sum ⟨true, true⟩ ⟨0, 1⟩ 0 4 2 (fun _ _ => 0)
      (by decide) (by decide) (by decide)).trans
      (by
        have t2 : Int.toNat 2 = 2 := rfl
        norm_num [t2, Finset.sum_range_succ, FUNC])⟩

/-- C6: for every left boundary `X`, rectangle width `W` and index `i` with
`0 ≤ i < count`, the rectangle loop, run on a block of at least `count` cells,
ends with `W * FUNC (X + i * W)` in cell `i`, where `FUNC x = x * x`: the
height is taken at the left edge of the rectangle. -/
theorem C6_area_stored_for_rectangle (X W : ℚ) (count : Int) (our_areas : List ℚ) (i : Int)
    (hcells : count.toNat ≤ our_areas.length) (h0 : 0 ≤ i) (hi : i < count) :
    ∃ out, rectangleLoop X W count our_areas = some out ∧
      out[i.toNat]? = some (W * FUNC (X + (i : ℚ) * W)) ∧
      FUNC (X + (i : ℚ) * W) = (X + (i : ℚ) * W) * (X + (i : ℚ) * W) := by
  obtain ⟨out, hrun, -, hlow, -⟩ := rectangle_fold X W count.toNat our_areas hcells
  refine ⟨out, hrun, ?_, rfl⟩
  have h := hlow i.toNat (by omega)
  rwa [Int.toNat_of_nonneg h0] at h

/-- Witness of C6: three rectangles of width `2` from `X = 1` in a block of
four cells; cell `2` ends with `2 * (1 + 2 * 2) ^ 2 = 50`. -/
theorem C6_area_stored_for_rectangle_witness :
    ∃ out, rectangleLoop 1 2 3 [9, 9, 9, 9] = some out ∧
      out[(2 : Int).toNat]? = some (2 * FUNC (1 + ((2 : Int) : ℚ) * 2)) ∧
      FUNC (1 + ((2 : Int) : ℚ) * 2) = (1 + ((2 : Int) : ℚ) * 2) * (1 + ((2 : Int) : ℚ) * 2) :=
  C6_area_stored_for_rectangle 1 2 3 [9, 9, 9, 9] 2 (by decide) (by decide) (by decide)

/-- With no option on the command line the loop is left at once with the
initial values. -/
theorem parseLoop_no_options (libc : Libc) (prog : String) (fuel : Nat) :
    parseLoop libc [prog] fuel 1 defaults = .parsed defaults := by
  cases hperm : libc.permute <;> cases fuel <;>
    simp [parseLoop, getopt, getoptAt, skipOperands, hperm]

/-- C7: with `FUNC x = x * x`, the default domain `[0, 10]`, the default
`10` rectangles and a single process, the total is exactly `285`; started
without options, a build with `SHOW_RESULTS` prints that one number. -/
theorem C7_default_total_is_285 (b : Build) (libc : Libc) (w : Comm) (prog : String)
    (heap : Int → Nat → ℚ) (hP : NUMBER_OF_PROCESSES b w = 1) (hr : OUR_RANK b w = 0) :
    the_total_sum b w 0 10 10 heap = some 285 ∧
    (285 : ℚ) = 0 + 1 + 4 + 9 + 16 + 25 + 36 + 49 + 64 + 81 ∧
    (b.SHOW_RESULTS = true →
      main b libc w [prog] heap = some { stdout := [285], stderr := [], exitCode := 0 }) := by
  have htotal : the_total_sum b w 0 10 10 heap = some 285 := default_total b w heap hP hr
  refine ⟨htotal, by norm_num, fun hshow => ?_⟩
  have hparse := parseLoop_no_options libc prog [prog].length
  have hdef : the_total_sum b w defaults.X_LEFT defaults.X_RIGHT
      defaults.NUMBER_OF_RECTANGLES heap = some 285 := htotal
  simp only [main, hparse, hdef, hshow, hr, Option.map_some', and_self, if_true]

/-- Witness of C7: the serial build with `SHOW_RESULTS`, started as
`./area.serial`. -/
theorem C7_default_total_is_285_witness :
    the_total_sum ⟨false, true⟩ ⟨0, 1⟩ 0 10 10 (fun _ _ => 0) = some 285 ∧
    main ⟨false, true⟩ ⟨fun _ => 0, fun _ => 0, true⟩ ⟨0, 1⟩ ["./area.serial"] (fun _ _ => 0) =
      some { stdout := [285], stderr := [], exitCode := 0 } :=
  have h := C7_default_total_is_285 ⟨false, true⟩ ⟨fun _ => 0, fun _ => 0, true⟩ ⟨0, 1⟩
    "./area.serial" (fun _ _ => 0) (by decide) (by decide)
  ⟨h.1, h.2.2 rfl⟩

/-- On `[0, 1]` a single process with `n ≥ 1` rectangles returns
`(n - 1) (2 n - 1) / (6 n ^ 2)`. -/
theorem unit_interval_total (b : Build) (w : Comm) (n : Int) (heap : Int → Nat → ℚ)
    (hn : 1 ≤ n) (hP : NUMBER_OF_PROCESSES b w = 1) (hr : OUR_RANK b w = 0) :
    the_total_sum b w 0 1 n heap =
      some (((n : ℚ) - 1) * (2 * (n : ℚ) - 1) / (6 * (n : ℚ) ^ 2)) := by
  have hcast : ((n.toNat : Nat) : ℚ) = (n : ℚ) := by
    have : ((n.toNat : Nat) : Int) = n := Int.toNat_of_nonneg (by omega)
    exact_mod_cast this
  have hpos : (0 : ℚ) < (n : ℚ) := by exact_mod_cast (show (0 : Int) < n by omega)
  have hne : (n : ℚ) ≠ 0 := ne_of_gt hpos
  have hcount : OUR_NUMBER_OF_RECTANGLES n 1 0 = n := by
    simp [OUR_NUMBER_OF_RECTANGLES_eq, Int.tdiv_one, Int.tmod_one]
  rw [the_total_sum_single b w 0 1 n heap hP hr, rankSum_closed_form, hcount, hcast,
    OUR_X_LEFT_eq]
  simp only [RECTANGLE_WIDTH, MY_THREAD_NUM, if_true]
  congr 1
  field_simp
  ring

/-- The closed form lies below `1 / 3`, by at most `1 / (2 n)`. -/
theorem unit_interval_bounds (n : ℚ) (hn : 1 ≤ n) :
    (n - 1) * (2 * n - 1) / (6 * n ^ 2) < 1 / 3 ∧
    1 / 3 - (n - 1) * (2 * n - 1) / (6 * n ^ 2) ≤ 1 / (2 * n) := by
  have hpos : 0 < n := by linarith
  have hgap : 1 / 3 - (n - 1) * (2 * n - 1) / (6 * n ^ 2) = (3 * n - 1) / (6 * n ^ 2) := by
    field_simp
    ring
  have hgap_pos : 0 < (3 * n - 1) / (6 * n ^ 2) := by
    apply div_pos <;> nlinarith
  have hgap_le : (3 * n - 1) / (6 * n ^ 2) ≤ 1 / (2 * n) := by
    rw [div_le_div_iff₀ (by positivity) (by positivity)]
    nlinarith
  constructor
  · linarith
  · linarith

/-- C8: with `FUNC x = x * x` on `[0, 1]` and a single process, for every
`n ≥ 1` the total is strictly below `1 / 3` and within `1 / (2 n)` of it; hence
it tends to `1 / 3` from below (for every `ε > 0` all totals from some `n₀` on
lie in `(1 / 3 - ε, 1 / 3)`), and for `n = 1000000` it lies within `10⁻⁶` below
`1 / 3`. -/
theorem C8_unit_interval_converges_from_below :
    (∀ (b : Build) (w : Comm) (n : Int) (heap : Int → Nat → ℚ), 1 ≤ n →
      NUMBER_OF_PROCESSES b w = 1 → OUR_RANK b w = 0 →
      ∃ s, the_total_sum b w 0 1 n heap = some s ∧ s < 1 / 3 ∧ 1 / 3 - s ≤ 1 / (2 * (n : ℚ))) ∧
    (∀ ε : ℚ, 0 < ε → ∃ n₀ : Int, 1 ≤ n₀ ∧
      ∀ (b : Build) (w : Comm) (n : Int) (heap : Int → Nat → ℚ), n₀ ≤ n →
        NUMBER_OF_PROCESSES b w = 1 → OUR_RANK b w = 0 →
        ∃ s, the_total_sum b w 0 1 n heap = some s ∧ 1 / 3 - ε < s ∧ s < 1 / 3) ∧
    (∀ (b : Build) (w : Comm) (heap : Int → Nat → ℚ),
      NUMBER_OF_PROCESSES b w = 1 → OUR_RANK b w = 0 →
      ∃ s, the_total_sum b w 0 1 1000000 heap = some s ∧ s < 1 / 3 ∧
        1 / 3 - s ≤ 1 / 1000000) := by
  have key : ∀ (b : Build) (w : Comm) (n : Int) (heap : Int → Nat → ℚ), 1 ≤ n →
      NUMBER_OF_PROCESSES b w = 1 → OUR_RANK b w = 0 →
      ∃ s, the_total_sum b w 0 1 n heap = some s ∧ s < 1 / 3 ∧
        1 / 3 - s ≤ 1 / (2 * (n : ℚ)) := by
    intro b w n heap hn hP hr
    have hq : (1 : ℚ) ≤ (n : ℚ) := by exact_mod_cast hn
    exact ⟨_, unit_interval_total b w n heap hn hP hr, unit_interval_bounds _ hq⟩
  refine ⟨key, ?_, ?_⟩
  · intro ε hε
    obtain ⟨m, hm⟩ := exists_nat_gt (1 / ε)
    refine ⟨(m : Int) + 1, by omega, ?_⟩
    intro b w n heap hn hP hr
    obtain ⟨s, hs, hlt, hgap⟩ := key b w n heap (by omega) hP hr
    refine ⟨s, hs, ?_, hlt⟩
    have hmn : (m : ℚ) + 1 ≤ (n : ℚ) := by exact_mod_cast hn
    have hm0 : (0 : ℚ) < 1 / ε := by positivity
    have hnpos : (0 : ℚ) < (n : ℚ) := by linarith
    have hsmall : 1 / (2 * (n : ℚ)) < ε := by
      rw [div_lt_iff₀ (by positivity)]
      have h1 : 1 < ε * (m : ℚ) := by
        have := (div_lt_iff₀ hε).mp hm
        linarith
      nlinarith
    linarith
  · intro b w heap hP hr
    obtain ⟨s, hs, hlt, hgap⟩ := key b w 1000000 heap (by decide) hP hr
    refine ⟨s, hs, hlt, hgap.trans ?_⟩
    norm_num

/-- Witness of C8: two rectangles on `[0, 1]` give `1 / 8`, which is below
`1 / 3` by `5 / 24 ≤ 1 / 4`. -/
theorem C8_unit_interval_converges_from_below_witness :
    ∃ s, the_total_sum ⟨false, true⟩ ⟨0, 1⟩ 0 1 2 (fun _ _ => 0) = some s ∧ s < 1 / 3 ∧
      1 / 3 - s ≤ 1 / (2 * ((2 : Int) : ℚ)) :=
  C8_unit_interval_converges_from_below.1 ⟨false, true⟩ ⟨0, 1⟩ 2 (fun _ _ => 0)
    (by decide) (by decide) (by decide)

/-! ## Lemmas on the option loop -/

theorem getElem?_after (pre l : List String) (j : Nat) :
    (pre ++ l)[pre.length + j]? = l[j]? := by
  rw [List.getElem?_append_right (by omega)]
  congr 1
  omega

/-- A recognised option moves the position forward and stays inside `argv`. -/
theorem getoptAt_advances (argv : List String) (optind : Nat) (c : Char) (a : String) (k : Nat)
    (h : getoptAt argv optind = (.opt c a, k)) : optind < k ∧ k ≤ argv.length := by
  unfold getoptAt at h
  split at h
  · simp at h
  · rename_i x hx
    have h1 : optind < argv.length := by
      by_contra hc
      rw [List.getElem?_eq_none (by omega)] at hx
      simp at hx
    split at h
    · split_ifs at h
      · simp at h
      · simp at h; omega
      · split at h
        · rename_i y hy
          have h2 : optind + 1 < argv.length := by
            by_contra hc
            rw [List.getElem?_eq_none (by omega)] at hy
            simp at hy
          simp at h
          omega
        · simp at h
      · simp at h
    · simp at h

/-- A recognised option moves `optind` forward and stays inside `argv`, in
either ordering. -/
theorem getopt_advances (permute : Bool) (argv : List String) (optind : Nat) (c : Char)
    (a : String) (k : Nat) (h : getopt permute argv optind = (.opt c a, k)) :
    optind < k ∧ k ≤ argv.length := by
  unfold getopt at h
  split at h
  · have := getoptAt_advances argv _ c a k h
    omega
  · exact getoptAt_advances argv optind c a k h

/-- The option loop never uses up a bound of `argv.length - optind`
iterations: every iteration that goes on has consumed an element of `argv`. -/
theorem parseLoop_fuel_suffices (libc : Libc) (argv : List String) (fuel : Nat) :
    ∀ (optind : Nat) (p : Params), argv.length ≤ optind + fuel →
      parseLoop libc argv fuel optind p ≠ .outOfFuel := by
  induction fuel with
  | zero =>
    intro optind p hlen
    unfold parseLoop
    split
    · simp
    · simp
    · rename_i c optarg k hg
      have := getopt_advances libc.permute argv optind c optarg k hg
      omega
  | succ fuel ih =>
    intro optind p hlen
    unfold parseLoop
    split
    · simp
    · simp
    · rename_i c optarg k hg
      have := getopt_advances libc.permute argv optind c optarg k hg
      split
      · simp
      · exact ih k _ (by omega)

/-- With at least one process in the group every rank leaves the reduction
with a value. -/
theorem the_total_sum_returns (b : Build) (w : Comm) (L R : ℚ) (N : Int)
    (heap : Int → Nat → ℚ) (hP : 1 ≤ NUMBER_OF_PROCESSES b w) :
    ∃ total, the_total_sum b w L R N heap = some total := by
  cases hb : b.MPI with
  | false => exact ⟨_, the_total_sum_serial b w L R N heap hb⟩
  | true =>
    have hsize : 1 ≤ w.size := by simpa [NUMBER_OF_PROCESSES, hb] using hP
    by_cases hrank : w.rank = 0
    · exact ⟨_, the_total_sum_root b w L R N heap hb hrank hsize⟩
    · exact ⟨_, the_total_sum_other b w L R N heap hb hrank hsize⟩

/-- One iteration of the option loop that assigns a value and goes on. -/
theorem parseLoop_step (libc : Libc) (argv : List String) (fuel optind k : Nat) (p q : Params)
    (c : Char) (optarg : String) (hg : getopt libc.permute argv optind = (.opt c optarg, k))
    (hs : switchOpt libc c optarg p = some q) :
    parseLoop libc argv (fuel + 1) optind p = parseLoop libc argv fuel k q := by
  conv_lhs => unfold parseLoop
  simp only [hg, hs]

/-- A call of `getopt` that returns `'?'` ends the loop in the usage exit. -/
theorem parseLoop_unknown (libc : Libc) (argv : List String) (fuel optind k : Nat) (p : Params)
    (hg : getopt libc.permute argv optind = (.unknown, k)) :
    parseLoop libc argv fuel optind p = .usageExit := by
  unfold parseLoop
  simp only [hg]

/-- A call of `getopt` that returns `-1` ends the loop with the values
assigned so far. -/
theorem parseLoop_done (libc : Libc) (argv : List String) (fuel optind k : Nat) (p : Params)
    (hg : getopt libc.permute argv optind = (.done, k)) :
    parseLoop libc argv fuel optind p = .parsed p := by
  unfold parseLoop
  simp only [hg]

/-- The `switch` has a case for each of the three option characters. -/
theorem switchOpt_optionChars (libc : Libc) (c : Char) (value : String) (p : Params)
    (hc : c ∈ optionChars) : ∃ q, switchOpt libc c value p = some q := by
  simp only [optionChars, List.mem_cons, List.mem_singleton, List.not_mem_nil, or_false] at hc
  rcases hc with rfl | rfl | rfl <;> simp [switchOpt]

/-- None of the option characters is the dash. -/
theorem optionChars_ne_dash (c : Char) (hc : c ∈ optionChars) : c ≠ '-' := by
  simp only [optionChars, List.mem_cons, List.mem_singleton, List.not_mem_nil, or_false] at hc
  rcases hc with rfl | rfl | rfl <;> decide

/-- At an element that is no operand both orderings scan that element. -/
theorem getopt_of_not_operand (permute : Bool) (pre post : List String) (x : String)
    (hx : isOperand x = false) :
    getopt permute (pre ++ x :: post) pre.length = getoptAt (pre ++ x :: post) pre.length := by
  unfold getopt
  cases permute with
  | false => simp
  | true => simp [skipOperands, hx]

/-- The permuting `getopt` passes an operand over: called at the operand it
hands back what it hands back called at the next element. -/
theorem getopt_skip_operand (pre post : List String) (x : String)
    (hx : isOperand x = true) :
    getopt true (pre ++ x :: post) pre.length = getopt true (pre ++ x :: post) (pre.length + 1) := by
  have h1 : (pre ++ x :: post).drop (pre.length + 1) = post := by
    have : pre ++ x :: post = (pre ++ [x]) ++ post := by simp
    rw [this]
    have hl : pre.length + 1 = (pre ++ [x]).length := by simp
    rw [hl, List.drop_left]
  unfold getopt
  simp only [if_true, List.drop_left, h1, skipOperands, hx]
  congr 1
  omega

/-- At the end of `argv` both orderings return `-1`. -/
theorem getopt_at_end (permute : Bool) (argv : List String) :
    getopt permute argv argv.length = (.done, argv.length) := by
  unfold getopt
  cases permute <;> simp [skipOperands, getoptAt]

/-- The first element an option is written as is no operand. -/
theorem render_head_not_operand (o : OptArg) (post : List String) :
    ∃ x tail, o.render ++ post = x :: tail ∧ isOperand x = false := by
  cases o with
  | separate c value => exact ⟨_, _, rfl, by simp [isOperand]⟩
  | attached c value => exact ⟨_, _, rfl, by simp [isOperand]⟩

/-- On a well-formed option the scan returns its character and argument and
moves past its elements, and the `switch` makes its assignment. -/
theorem getoptAt_wellFormed (libc : Libc) (o : OptArg) (ho : o.wellFormed)
    (pre post : List String) (p : Params) :
    ∃ c optarg, getoptAt (pre ++ (o.render ++ post)) pre.length =
        (.opt c optarg, pre.length + o.render.length) ∧
      switchOpt libc c optarg p = some (o.assign libc p) := by
  cases o with
  | separate c value =>
    have hc : c ∈ optionChars := ho
    obtain ⟨q, hq⟩ := switchOpt_optionChars libc c value p hc
    refine ⟨c, value, ?_, by simp [OptArg.assign, hq]⟩
    have h0 : (pre ++ (String.mk ['-', c] :: value :: post))[pre.length]? =
        some (String.mk ['-', c]) := by
      simpa using getElem?_after pre (String.mk ['-', c] :: value :: post) 0
    have h1 : (pre ++ (String.mk ['-', c] :: value :: post))[pre.length + 1]? = some value := by
      simpa using getElem?_after pre (String.mk ['-', c] :: value :: post) 1
    have hne := optionChars_ne_dash c hc
    unfold getoptAt
    simp only [OptArg.render, List.cons_append, List.nil_append, List.length_cons,
      List.length_nil]
    rw [h0]
    simp [h1, hc, hne]
  | attached c value =>
    obtain ⟨hc, hv⟩ : c ∈ optionChars ∧ value.toList ≠ [] := ho
    obtain ⟨q, hq⟩ := switchOpt_optionChars libc c value p hc
    refine ⟨c, value, ?_, by simp [OptArg.assign, hq]⟩
    have h0 : (pre ++ (String.mk ('-' :: c :: value.toList) :: post))[pre.length]? =
        some (String.mk ('-' :: c :: value.toList)) := by
      simpa using getElem?_after pre (String.mk ('-' :: c :: value.toList) :: post) 0
    have hv' : value.data ≠ [] := hv
    have hne := optionChars_ne_dash c hc
    unfold getoptAt
    simp only [OptArg.render, List.cons_append, List.nil_append, List.length_cons,
      List.length_nil]
    rw [h0]
    simp [hc, hne, hv']

/-- On a well-formed option `getopt`, in either ordering, returns its
character and argument and moves `optind` past its elements, and the `switch`
makes its assignment. -/
theorem getopt_wellFormed (libc : Libc) (o : OptArg) (ho : o.wellFormed)
    (pre post : List String) (p : Params) :
    ∃ c optarg, getopt libc.permute (pre ++ (o.render ++ post)) pre.length =
        (.opt c optarg, pre.length + o.render.length) ∧
      switchOpt libc c optarg p = some (o.assign libc p) := by
  obtain ⟨c, optarg, hg, hs⟩ := getoptAt_wellFormed libc o ho pre post p
  obtain ⟨x, tail, hx, hop⟩ := render_head_not_operand o post
  refine ⟨c, optarg, ?_, hs⟩
  rw [← hg, hx]
  exact getopt_of_not_operand libc.permute pre tail x hop

/-- The option loop runs through a sequence of well-formed options, making
the assignment of each in turn, and arrives at the element after them. -/
theorem parseLoop_options (libc : Libc) (opts : List OptArg) :
    ∀ (pre post : List String) (p : Params) (fuel : Nat),
      (∀ o ∈ opts, o.wellFormed) → opts.length ≤ fuel →
      parseLoop libc (pre ++ (opts.flatMap OptArg.render ++ post)) fuel pre.length p =
        parseLoop libc (pre ++ (opts.flatMap OptArg.render ++ post)) (fuel - opts.length)
          (pre.length + (opts.flatMap OptArg.render).length)
          (opts.foldl (OptArg.assign libc) p) := by
  induction opts with
  | nil => intro pre post p fuel _ _; simp
  | cons o os ih =>
    intro pre post p fuel hwf hfuel
    obtain ⟨f, rfl⟩ : ∃ f, fuel = f + 1 := ⟨fuel - 1, by simp at hfuel; omega⟩
    have hargv : pre ++ ((o :: os).flatMap OptArg.render ++ post) =
        pre ++ (o.render ++ (os.flatMap OptArg.render ++ post)) := by
      simp [List.flatMap_cons, List.append_assoc]
    have hargv' : pre ++ ((o :: os).flatMap OptArg.render ++ post) =
        (pre ++ o.render) ++ (os.flatMap OptArg.render ++ post) := by
      simp [List.flatMap_cons, List.append_assoc]
    obtain ⟨c, optarg, hg, hs⟩ := getopt_wellFormed libc o (hwf o (by simp)) pre
      (os.flatMap OptArg.render ++ post) p
    rw [← hargv] at hg
    rw [parseLoop_step libc _ f pre.length _ p _ c optarg hg hs]
    have hrec := ih (pre ++ o.render) post (o.assign libc p) f
      (fun x hx => hwf x (by simp [hx])) (by simp at hfuel; omega)
    rw [← hargv', List.length_append] at hrec
    rw [hrec]
    simp only [List.flatMap_cons, List.length_append, List.length_cons, List.foldl_cons]
    congr 1 <;> omega

/-- A command line made of well-formed options only is parsed to the end. -/
theorem parseLoop_wellFormed (libc : Libc) (prog : String) (opts : List OptArg)
    (hwf : ∀ o ∈ opts, o.wellFormed) (fuel : Nat) (hfuel : opts.length ≤ fuel) :
    parseLoop libc (prog :: opts.flatMap OptArg.render) fuel 1 defaults =
      .parsed (opts.foldl (OptArg.assign libc) defaults) := by
  have h := parseLoop_options libc opts [prog] [] defaults fuel hwf hfuel
  simp only [List.append_nil, List.singleton_append, List.length_singleton] at h
  rw [h]
  apply parseLoop_done (k := (prog :: opts.flatMap OptArg.render).length)
  have hl : 1 + (opts.flatMap OptArg.render).length =
      (prog :: opts.flatMap OptArg.render).length := by
    simp only [List.length_cons]; omega
  rw [hl]
  exact getopt_at_end libc.permute _

/-- Two positions at which `getopt` hands back the same lead the loop to the
same end. -/
theorem parseLoop_congr (libc : Libc) (argv : List String) (fuel i j : Nat) (p : Params)
    (h : getopt libc.permute argv i = getopt libc.permute argv j) :
    parseLoop libc argv fuel i p = parseLoop libc argv fuel j p := by
  conv_lhs => unfold parseLoop
  conv_rhs => unfold parseLoop
  rw [h]

/-- The option loop runs through a sequence of well-formed options and, under
the permuting ordering, operands: it makes the assignment of each option in
turn and arrives at the element after them. -/
theorem parseLoop_items (libc : Libc) (items : List ArgItem) :
    ∀ (pre post : List String) (p : Params) (fuel : Nat),
      (∀ it ∈ items, it.wellFormed libc.permute) → items.length ≤ fuel →
      ∃ fuel', parseLoop libc (pre ++ (items.flatMap ArgItem.render ++ post)) fuel pre.length p =
        parseLoop libc (pre ++ (items.flatMap ArgItem.render ++ post)) fuel'
          (pre.length + (items.flatMap ArgItem.render).length)
          (items.foldl (ArgItem.assign libc) p) := by
  induction items with
  | nil => intro pre post p fuel _ _; exact ⟨fuel, by simp⟩
  | cons it its ih =>
    intro pre post p fuel hwf hfuel
    have hrest : ∀ x ∈ its, x.wellFormed libc.permute := fun x hx => hwf x (by simp [hx])
    have hlen : its.length + 1 ≤ fuel := by simpa using hfuel
    have hargv : pre ++ ((it :: its).flatMap ArgItem.render ++ post) =
        pre ++ (it.render ++ (its.flatMap ArgItem.render ++ post)) := by
      simp [List.flatMap_cons, List.append_assoc]
    have hargv' : pre ++ ((it :: its).flatMap ArgItem.render ++ post) =
        (pre ++ it.render) ++ (its.flatMap ArgItem.render ++ post) := by
      simp [List.flatMap_cons, List.append_assoc]
    have hpos : pre.length + ((it :: its).flatMap ArgItem.render).length =
        (pre ++ it.render).length + (its.flatMap ArgItem.render).length := by
      simp only [List.flatMap_cons, List.length_append]; omega
    cases it with
    | option o =>
      obtain ⟨f, rfl⟩ : ∃ f, fuel = f + 1 := ⟨fuel - 1, by omega⟩
      have ho : o.wellFormed := hwf (.option o) (by simp)
      obtain ⟨c, optarg, hg, hs⟩ := getopt_wellFormed libc o ho pre
        (its.flatMap ArgItem.render ++ post) p
      have hg' : getopt libc.permute (pre ++ ((ArgItem.option o :: its).flatMap ArgItem.render
          ++ post)) pre.length = (.opt c optarg, pre.length + o.render.length) := by
        rw [hargv]; exact hg
      obtain ⟨fuel', hrec⟩ := ih (pre ++ o.render) post (o.assign libc p) f hrest (by omega)
      refine ⟨fuel', ?_⟩
      have hsame : pre ++ ((ArgItem.option o :: its).flatMap ArgItem.render ++ post) =
          (pre ++ o.render) ++ (its.flatMap ArgItem.render ++ post) := hargv'
      have hend : pre.length + ((ArgItem.option o :: its).flatMap ArgItem.render).length =
          (pre ++ o.render).length + (its.flatMap ArgItem.render).length := hpos
      rw [parseLoop_step libc _ f pre.length _ p _ c optarg hg' hs, hend, List.foldl_cons,
        hsame, ← List.length_append]
      exact hrec
    | operand a =>
      obtain ⟨hperm, hop⟩ : libc.permute = true ∧ isOperand a = true :=
        hwf (.operand a) (by simp)
      have hskip : getopt libc.permute
            (pre ++ ((ArgItem.operand a :: its).flatMap ArgItem.render ++ post)) pre.length =
          getopt libc.permute
            (pre ++ ((ArgItem.operand a :: its).flatMap ArgItem.render ++ post))
            (pre.length + 1) := by
        rw [hargv, hperm]
        exact getopt_skip_operand pre (its.flatMap ArgItem.render ++ post) a hop
      obtain ⟨fuel', hrec⟩ := ih (pre ++ [a]) post p fuel hrest (by omega)
      refine ⟨fuel', ?_⟩
      have hsame : pre ++ ((ArgItem.operand a :: its).flatMap ArgItem.render ++ post) =
          (pre ++ [a]) ++ (its.flatMap ArgItem.render ++ post) := hargv'
      have hend : pre.length + ((ArgItem.operand a :: its).flatMap ArgItem.render).length =
          (pre ++ [a]).length + (its.flatMap ArgItem.render).length := hpos
      have hone : pre.length + 1 = (pre ++ [a]).length := by simp
      rw [parseLoop_congr libc _ fuel pre.length (pre.length + 1) p hskip, hend,
        List.foldl_cons, hsame, hone]
      exact hrec

/-- The scan of an element `-c...` whose `c` is not an option character, and
which is not `--`, returns `'?'`. -/
theorem getoptAt_unrecognised (pre rest : List String) (c : Char) (cs : List Char)
    (hc : c ∉ optionChars) (hdd : ¬ (c = '-' ∧ cs = [])) :
    getoptAt (pre ++ String.mk ('-' :: c :: cs) :: rest) pre.length = (.unknown, pre.length) := by
  have h0 : (pre ++ String.mk ('-' :: c :: cs) :: rest)[pre.length]? =
      some (String.mk ('-' :: c :: cs)) := by
    simpa using getElem?_after pre (String.mk ('-' :: c :: cs) :: rest) 0
  unfold getoptAt
  rw [h0]
  simp [hc, hdd]

/-- The scan of an element `-c` with an option character `c`, when no element
comes after it, returns `'?'`: the argument is missing. -/
theorem getoptAt_missing_argument (pre : List String) (c : Char) (hc : c ∈ optionChars) :
    getoptAt (pre ++ [String.mk ['-', c]]) pre.length = (.unknown, pre.length + 1) := by
  have h0 : (pre ++ [String.mk ['-', c]])[pre.length]? = some (String.mk ['-', c]) := by
    simp
  have h1 : (pre ++ [String.mk ['-', c]])[pre.length + 1]? = none := by
    apply List.getElem?_eq_none
    simp
  have hne := optionChars_ne_dash c hc
  unfold getoptAt
  rw [h0]
  simp [h1, hc, hne]

/-- An element `-c...` whose `c` is not an option character, met after
well-formed options (and, under the permuting ordering, operands), ends the
loop in the usage exit. -/
theorem parseLoop_unrecognised (libc : Libc) (prog : String) (items : List ArgItem)
    (hwf : ∀ it ∈ items, it.wellFormed libc.permute) (c : Char) (cs : List Char)
    (rest : List String) (hc : c ∉ optionChars) (hdd : ¬ (c = '-' ∧ cs = [])) (fuel : Nat)
    (hfuel : items.length ≤ fuel) :
    parseLoop libc (prog :: (items.flatMap ArgItem.render ++ String.mk ('-' :: c :: cs) :: rest))
      fuel 1 defaults = .usageExit := by
  obtain ⟨fuel', h⟩ := parseLoop_items libc items [prog] (String.mk ('-' :: c :: cs) :: rest)
    defaults fuel hwf hfuel
  simp only [List.singleton_append, List.length_singleton] at h
  rw [h]
  apply parseLoop_unknown (k := (prog :: items.flatMap ArgItem.render).length)
  have hl : 1 + (items.flatMap ArgItem.render).length =
      (prog :: items.flatMap ArgItem.render).length := by
    simp only [List.length_cons]; omega
  have hop : isOperand (String.mk ('-' :: c :: cs)) = false := by simp [isOperand]
  have hsplit : prog :: (items.flatMap ArgItem.render ++ String.mk ('-' :: c :: cs) :: rest) =
      (prog :: items.flatMap ArgItem.render) ++ String.mk ('-' :: c :: cs) :: rest := by simp
  rw [hl, hsplit, getopt_of_not_operand libc.permute _ rest _ hop]
  exact getoptAt_unrecognised _ rest c cs hc hdd

/-- An option character at the very end of the command line, with no argument
after it, ends the loop in the usage exit as well. -/
theorem parseLoop_missing_argument (libc : Libc) (prog : String) (items : List ArgItem)
    (hwf : ∀ it ∈ items, it.wellFormed libc.permute) (c : Char) (hc : c ∈ optionChars)
    (fuel : Nat) (hfuel : items.length ≤ fuel) :
    parseLoop libc (prog :: (items.flatMap ArgItem.render ++ [String.mk ['-', c]]))
      fuel 1 defaults = .usageExit := by
  obtain ⟨fuel', h⟩ := parseLoop_items libc items [prog] [String.mk ['-', c]]
    defaults fuel hwf hfuel
  simp only [List.singleton_append, List.length_singleton] at h
  rw [h]
  apply parseLoop_unknown (k := (prog :: items.flatMap ArgItem.render).length + 1)
  have hl : 1 + (items.flatMap ArgItem.render).length =
      (prog :: items.flatMap ArgItem.render).length := by
    simp only [List.length_cons]; omega
  have hop : isOperand (String.mk ['-', c]) = false := by simp [isOperand]
  have hsplit : prog :: (items.flatMap ArgItem.render ++ [String.mk ['-', c]]) =
      (prog :: items.flatMap ArgItem.render) ++ String.mk ['-', c] :: [] := by simp
  rw [hl, hsplit, getopt_of_not_operand libc.permute _ [] _ hop]
  exact getoptAt_missing_argument _ c hc

/-- The number of items is at most the number of elements they are written
as. -/
theorem length_le_render_items (items : List ArgItem) :
    items.length ≤ (items.flatMap ArgItem.render).length := by
  induction items with
  | nil => simp
  | cons it its ih =>
    rw [List.flatMap_cons, List.length_append, List.length_cons]
    have : 1 ≤ it.render.length := by
      cases it with
      | option o => cases o <;> simp [ArgItem.render, OptArg.render]
      | operand a => simp [ArgItem.render]
    omega

/-- The number of options is at most the number of elements they are written
as. -/
theorem length_le_render (opts : List OptArg) :
    opts.length ≤ (opts.flatMap OptArg.render).length := by
  induction opts with
  | nil => simp
  | cons o os ih =>
    rw [List.flatMap_cons, List.length_append, List.length_cons]
    have : 1 ≤ o.render.length := by cases o <;> simp [OptArg.render]
    omega

/-- With at least one process in the group, `main` comes to an end on every
command line. -/
theorem main_returns (b : Build) (libc : Libc) (w : Comm) (argv : List String)
    (heap : Int → Nat → ℚ) (hP : 1 ≤ NUMBER_OF_PROCESSES b w) :
    ∃ o, main b libc w argv heap = some o := by
  unfold main
  have hfuel := parseLoop_fuel_suffices libc argv argv.length 1 defaults (by omega)
  split
  · rename_i h; exact absurd h hfuel
  · exact ⟨_, rfl⟩
  · rename_i p _
    obtain ⟨total, ht⟩ := the_total_sum_returns b w p.X_LEFT p.X_RIGHT p.NUMBER_OF_RECTANGLES
      heap hP
    exact ⟨_, by rw [ht]; rfl⟩

/-! ## C9: what is printed -/

/-- C9 (counterexample): the serial build without `SHOW_RESULTS`, started
without options.  The process has rank `0` and its total is `285`, yet it
prints nothing. -/
theorem C9_counterexample_rank0_prints_nothing :
    OUR_RANK ⟨false, false⟩ ⟨0, 1⟩ = 0 ∧
    the_total_sum ⟨false, false⟩ ⟨0, 1⟩ 0 10 10 (fun _ _ => 0) = some 285 ∧
    main ⟨false, false⟩ ⟨fun _ => 0, fun _ => 0, true⟩ ⟨0, 1⟩ ["./area.serial"] (fun _ _ => 0) =
      some { stdout := [], stderr := [], exitCode := 0 } := by
  have htotal : the_total_sum ⟨false, false⟩ ⟨0, 1⟩ defaults.X_LEFT defaults.X_RIGHT
      defaults.NUMBER_OF_RECTANGLES (fun _ _ => 0) = some 285 :=
    default_total ⟨false, false⟩ ⟨0, 1⟩ (fun _ _ => 0) (by decide) (by decide)
  refine ⟨by decide, htotal, ?_⟩
  have hparse := parseLoop_no_options ⟨fun _ => 0, fun _ => 0, true⟩ "./area.serial"
    ["./area.serial"].length
  simp only [main, hparse, htotal, Option.map_some']
  simp

/-- C9 (amended): in a run that gets past option parsing, a build with
`SHOW_RESULTS` prints exactly one number at rank `0`, the value of
`the_total_sum`; a rank other than `0` prints nothing, a build without
`SHOW_RESULTS` prints nothing at any rank, and a run that ends in the usage
exit prints nothing. -/
theorem C9_prints_total_at_root_under_SHOW_RESULTS (b : Build) (libc : Libc) (w : Comm)
    (argv : List String) (heap : Int → Nat → ℚ) (hP : 1 ≤ NUMBER_OF_PROCESSES b w) :
    ∃ o, main b libc w argv heap = some o ∧
      (∀ p, parseLoop libc argv argv.length 1 defaults = .parsed p →
        b.SHOW_RESULTS = true → OUR_RANK b w = 0 →
        ∃ total, the_total_sum b w p.X_LEFT p.X_RIGHT p.NUMBER_OF_RECTANGLES heap =
          some total ∧ o.stdout = [total]) ∧
      (OUR_RANK b w ≠ 0 → o.stdout = []) ∧
      (b.SHOW_RESULTS = false → o.stdout = []) ∧
      (parseLoop libc argv argv.length 1 defaults = .usageExit → o.stdout = []) := by
  have hfuel := parseLoop_fuel_suffices libc argv argv.length 1 defaults (by omega)
  cases hparse : parseLoop libc argv argv.length 1 defaults with
  | outOfFuel => exact absurd hparse hfuel
  | usageExit =>
    refine ⟨{ stdout := [], stderr := [usageMessage b argv], exitCode := -1 }, ?_, ?_, ?_, ?_, ?_⟩
    · simp only [main, hparse]
    · intro p hp; cases hp
    · intro _; rfl
    · intro _; rfl
    · intro _; rfl
  | parsed p =>
    obtain ⟨total, ht⟩ := the_total_sum_returns b w p.X_LEFT p.X_RIGHT p.NUMBER_OF_RECTANGLES
      heap hP
    refine ⟨{ stdout := if b.SHOW_RESULTS = true ∧ OUR_RANK b w = 0 then [total] else [],
              stderr := [], exitCode := 0 }, ?_, ?_, ?_, ?_, ?_⟩
    · simp only [main, hparse, ht, Option.map_some']
    · intro q hq hshow hrank
      cases hq
      exact ⟨total, ht, by simp [hshow, hrank]⟩
    · intro hrank; simp [hrank]
    · intro hshow; simp [hshow]
    · intro h; cases h

/-- Witness of C9 (amended): the `MPI` build with `SHOW_RESULTS`, two
processes on the defaults, seen at rank `0`: one number, `285`, is printed. -/
theorem C9_prints_total_at_root_under_SHOW_RESULTS_witness :
    (1 : Int) ≤ NUMBER_OF_PROCESSES ⟨true, true⟩ ⟨0, 2⟩ ∧
    ∃ o, main ⟨true, true⟩ ⟨fun _ => 0, fun _ => 0, true⟩ ⟨0, 2⟩ ["./area.mpi"] (fun _ _ => 0) =
        some o ∧ o.stdout = [285] := by
  refine ⟨by decide, ?_⟩
  obtain ⟨o, ho, hroot, -⟩ := C9_prints_total_at_root_under_SHOW_RESULTS ⟨true, true⟩
    ⟨fun _ => 0, fun _ => 0, true⟩ ⟨0, 2⟩ ["./area.mpi"] (fun _ _ => 0) (by decide)
  obtain ⟨total, ht, hout⟩ := hroot defaults (parseLoop_no_options _ _ _) rfl (by decide)
  have h285 : the_total_sum ⟨true, true⟩ ⟨0, 2⟩ defaults.X_LEFT defaults.X_RIGHT
      defaults.NUMBER_OF_RECTANGLES (fun _ _ => 0) = some 285 := by
    have hq : Int.tdiv 10 2 = 5 := by decide
    have hm : Int.tmod 10 2 = 0 := by decide
    have t2 : Int.toNat 2 = 2 := rfl
    have t5 : Int.toNat 5 = 5 := rfl
    rw [the_total_sum_root _ _ _ _ _ _ rfl rfl (by decide)]
    norm_num [defaults, Finset.sum_range_succ, rankSum_closed_form,
      OUR_NUMBER_OF_RECTANGLES_eq, OUR_X_LEFT_eq, RECTANGLE_WIDTH, MY_THREAD_NUM, hq, hm, t2, t5]
  rw [h285] at ht
  cases ht
  exact ⟨o, ho, hout⟩

/-! ## C10: the usage exit -/

/-- The usage line of lines 85 and 87 for a command line that begins with the
program name. -/
theorem usageMessage_cons (b : Build) (prog : String) (args : List String) :
    usageMessage b (prog :: args) =
      if b.MPI = true then
        "Usage: mpirun -np NUMBER_OF_PROCESSES " ++ prog ++
          " [-n NUMBER_OF_RECTANGLES] [-l X_LEFT] [-r X_RIGHT]\n"
      else "Usage: " ++ prog ++ " [-n NUMBER_OF_RECTANGLES] [-l X_LEFT] [-r X_RIGHT]\n" :=
  rfl

/-- C10: when the option loop meets an element `-c...` whose `c` is not one of
`n`, `l`, `r` (and which is not the end-of-options mark `--`), `main` ends
before any computation: nothing is printed on standard output, the line
`Usage: PROG [-n NUMBER_OF_RECTANGLES] [-l X_LEFT] [-r X_RIGHT]` (after
`Usage: mpirun -np NUMBER_OF_PROCESSES` in the `MPI` build) is written to
standard error and the exit code is `-1`, an exit status of `255`.  The loop
meets such an element when only well-formed options stand before it and, with
a `getopt` that permutes, also when operands stand before it or among those
options.  The same happens when an option character ends the command line
without its argument.  A command line made only of `-n`, `-l`, `-r` with
arguments, whatever the arguments are, is parsed through with every
assignment made, and `main` returns `0` with nothing on standard error. -/
theorem C10_unrecognised_flag_usage_exit :
    (∀ (b : Build) (libc : Libc) (w : Comm) (heap : Int → Nat → ℚ) (prog : String)
        (items : List ArgItem) (c : Char) (cs : List Char) (rest : List String),
      (∀ it ∈ items, it.wellFormed libc.permute) → c ∉ optionChars → ¬ (c = '-' ∧ cs = []) →
      main b libc w
          (prog :: (items.flatMap ArgItem.render ++ String.mk ('-' :: c :: cs) :: rest)) heap =
        some { stdout := [],
               stderr := [if b.MPI = true then
                   "Usage: mpirun -np NUMBER_OF_PROCESSES " ++ prog ++
                     " [-n NUMBER_OF_RECTANGLES] [-l X_LEFT] [-r X_RIGHT]\n"
                 else
                   "Usage: " ++ prog ++ " [-n NUMBER_OF_RECTANGLES] [-l X_LEFT] [-r X_RIGHT]\n"],
               exitCode := -1 }) ∧
    (∀ (b : Build) (libc : Libc) (w : Comm) (heap : Int → Nat → ℚ) (prog : String)
        (items : List ArgItem) (c : Char),
      (∀ it ∈ items, it.wellFormed libc.permute) → c ∈ optionChars →
      main b libc w (prog :: (items.flatMap ArgItem.render ++ [String.mk ['-', c]])) heap =
        some { stdout := [],
               stderr := [if b.MPI = true then
                   "Usage: mpirun -np NUMBER_OF_PROCESSES " ++ prog ++
                     " [-n NUMBER_OF_RECTANGLES] [-l X_LEFT] [-r X_RIGHT]\n"
                 else
                   "Usage: " ++ prog ++ " [-n NUMBER_OF_RECTANGLES] [-l X_LEFT] [-r X_RIGHT]\n"],
               exitCode := -1 }) ∧
    (exitStatus (-1) = 255 ∧ exitStatus (-1) ≠ 0) ∧
    (∀ (b : Build) (libc : Libc) (w : Comm) (heap : Int → Nat → ℚ) (prog : String)
        (opts : List OptArg),
      (∀ o ∈ opts, o.wellFormed) → 1 ≤ NUMBER_OF_PROCESSES b w →
      parseLoop libc (prog :: opts.flatMap OptArg.render)
          (prog :: opts.flatMap OptArg.render).length 1 defaults =
        .parsed (opts.foldl (OptArg.assign libc) defaults) ∧
      ∃ o, main b libc w (prog :: opts.flatMap OptArg.render) heap = some o ∧
        o.stderr = [] ∧ o.exitCode = 0) := by
  refine ⟨?_, ?_, by decide, ?_⟩
  · intro b libc w heap prog items c cs rest hwf hc hdd
    have hfuel : items.length ≤
        (prog :: (items.flatMap ArgItem.render ++ String.mk ('-' :: c :: cs) :: rest)).length := by
      have := length_le_render_items items
      simp only [List.length_cons, List.length_append]
      omega
    rw [← usageMessage_cons b prog
      (items.flatMap ArgItem.render ++ String.mk ('-' :: c :: cs) :: rest)]
    simp only [main, parseLoop_unrecognised libc prog items hwf c cs rest hc hdd _ hfuel]
  · intro b libc w heap prog items c hwf hc
    have hfuel : items.length ≤
        (prog :: (items.flatMap ArgItem.render ++ [String.mk ['-', c]])).length := by
      have := length_le_render_items items
      simp only [List.length_cons, List.length_append]
      omega
    rw [← usageMessage_cons b prog (items.flatMap ArgItem.render ++ [String.mk ['-', c]])]
    simp only [main, parseLoop_missing_argument libc prog items hwf c hc _ hfuel]
  · intro b libc w heap prog opts hwf hP
    have hfuel : opts.length ≤ (prog :: opts.flatMap OptArg.render).length := by
      have := length_le_render opts
      simp only [List.length_cons]
      omega
    have hparse := parseLoop_wellFormed libc prog opts hwf _ hfuel
    refine ⟨hparse, ?_⟩
    obtain ⟨total, ht⟩ := the_total_sum_returns b w
      (opts.foldl (OptArg.assign libc) defaults).X_LEFT
      (opts.foldl (OptArg.assign libc) defaults).X_RIGHT
      (opts.foldl (OptArg.assign libc) defaults).NUMBER_OF_RECTANGLES heap hP
    exact ⟨{ stdout := if b.SHOW_RESULTS = true ∧ OUR_RANK b w = 0 then [total] else [],
             stderr := [], exitCode := 0 },
      by simp only [main, hparse, ht, Option.map_some'], rfl, rfl⟩

/-- Witness of C10.  With the `getopt` of POSIX, `./area.serial -n 5 -x` ends
in the usage exit with the usage line of the serial build.  With the `getopt`
that permutes, `./area.mpi input.txt -n 5 -x`, where an operand comes first,
ends in the usage exit with the usage line of the `MPI` build, and so does
`./area.mpi -n`, where the argument is missing.  `./area.serial -n 5 -l0.5`
is parsed through. -/
theorem C10_unrecognised_flag_usage_exit_witness :
    main ⟨false, true⟩ ⟨fun _ => 5, fun _ => 1 / 2, false⟩ ⟨0, 1⟩
        ["./area.serial", "-n", "5", "-x"] (fun _ _ => 0) =
      some { stdout := [],
             stderr := ["Usage: ./area.serial [-n NUMBER_OF_RECTANGLES] [-l X_LEFT] [-r X_RIGHT]\n"],
             exitCode := -1 } ∧
    main ⟨true, true⟩ ⟨fun _ => 5, fun _ => 1 / 2, true⟩ ⟨0, 2⟩
        ["./area.mpi", "input.txt", "-n", "5", "-x"] (fun _ _ => 0) =
      some { stdout := [],
             stderr := ["Usage: mpirun -np NUMBER_OF_PROCESSES ./area.mpi [-n NUMBER_OF_RECTANGLES] [-l X_LEFT] [-r X_RIGHT]\n"],
             exitCode := -1 } ∧
    main ⟨true, true⟩ ⟨fun _ => 5, fun _ => 1 / 2, true⟩ ⟨0, 2⟩
        ["./area.mpi", "-n"] (fun _ _ => 0) =
      some { stdout := [],
             stderr := ["Usage: mpirun -np NUMBER_OF_PROCESSES ./area.mpi [-n NUMBER_OF_RECTANGLES] [-l X_LEFT] [-r X_RIGHT]\n"],
             exitCode := -1 } ∧
    parseLoop ⟨fun _ => 5, fun _ => 1 / 2, true⟩ ["./area.serial", "-n", "5", "-l0.5"] 4 1
        defaults =
      .parsed { NUMBER_OF_RECTANGLES := 5, X_LEFT := 1 / 2, X_RIGHT := 10 } := by
  have hwf2 : ∀ o ∈ [OptArg.separate 'n' "5", OptArg.attached 'l' "0.5"], o.wellFormed := by
    decide
  refine ⟨?_, ?_, ?_, ?_⟩
  · exact C10_unrecognised_flag_usage_exit.1 ⟨false, true⟩ ⟨fun _ => 5, fun _ => 1 / 2, false⟩
      ⟨0, 1⟩ (fun _ _ => 0) "./area.serial" [ArgItem.option (OptArg.separate 'n' "5")] 'x' [] []
      (by decide) (by decide) (by decide)
  · exact C10_unrecognised_flag_usage_exit.1 ⟨true, true⟩ ⟨fun _ => 5, fun _ => 1 / 2, true⟩
      ⟨0, 2⟩ (fun _ _ => 0) "./area.mpi"
      [ArgItem.operand "input.txt", ArgItem.option (OptArg.separate 'n' "5")] 'x' [] []
      (by decide) (by decide) (by decide)
  · exact C10_unrecognised_flag_usage_exit.2.1 ⟨true, true⟩
      ⟨fun _ => 5, fun _ => 1 / 2, true⟩ ⟨0, 2⟩ (fun _ _ => 0) "./area.mpi" [] 'n'
      (by decide) (by decide)
  · have h := (C10_unrecognised_flag_usage_exit.2.2.2 ⟨false, true⟩
      ⟨fun _ => 5, fun _ => 1 / 2, true⟩ ⟨0, 1⟩ (fun _ _ => 0) "./area.serial"
      [OptArg.separate 'n' "5", OptArg.attached 'l' "0.5"] hwf2 (by decide)).1
    have hassign : List.foldl (OptArg.assign ⟨fun _ => 5, fun _ => 1 / 2, true⟩) defaults
        [OptArg.separate 'n' "5", OptArg.attached 'l' "0.5"] =
        { NUMBER_OF_RECTANGLES := 5, X_LEFT := 1 / 2, X_RIGHT := 10 } := by
      simp [OptArg.assign, switchOpt, defaults]
    rw [hassign] at h
    exact h

/-! ## C11: the defaults and what each option assigns -/

/-- The assignment made for an option, by its option character: `n` replaces
`NUMBER_OF_RECTANGLES` by `atoi` of the argument, `l` replaces `X_LEFT` and
`r` replaces `X_RIGHT` by `atof` of the argument; the other two values stay. -/
theorem assign_frame (libc : Libc) (p : Params) (o : OptArg) :
    (o.flag = 'n' → o.assign libc p =
      { NUMBER_OF_RECTANGLES := libc.atoi o.value, X_LEFT := p.X_LEFT, X_RIGHT := p.X_RIGHT }) ∧
    (o.flag = 'l' → o.assign libc p =
      { NUMBER_OF_RECTANGLES := p.NUMBER_OF_RECTANGLES, X_LEFT := libc.atof o.value,
        X_RIGHT := p.X_RIGHT }) ∧
    (o.flag = 'r' → o.assign libc p =
      { NUMBER_OF_RECTANGLES := p.NUMBER_OF_RECTANGLES, X_LEFT := p.X_LEFT,
        X_RIGHT := libc.atof o.value }) := by
  cases o <;>
    refine ⟨fun h => ?_, fun h => ?_, fun h => ?_⟩ <;>
    simp only [OptArg.flag] at h <;> subst h <;>
    simp [OptArg.assign, OptArg.value, switchOpt]

/-- C11: with no option given the option loop hands on
`NUMBER_OF_RECTANGLES = 10`, `X_LEFT = 0.0`, `X_RIGHT = 10.0`.  An option
written after any well-formed options replaces only its own value, `-n` by
`atoi` and `-l`, `-r` by `atof` of its argument, and leaves the other two as
the earlier options (or the defaults) set them. -/
theorem C11_defaults_and_option_frame :
    (∀ (libc : Libc) (prog : String),
      parseLoop libc [prog] [prog].length 1 defaults =
        .parsed { NUMBER_OF_RECTANGLES := 10, X_LEFT := 0, X_RIGHT := 10 }) ∧
    (∀ (libc : Libc) (prog : String) (opts : List OptArg) (o : OptArg),
      (∀ x ∈ opts, x.wellFormed) → o.wellFormed →
      ∃ p q,
        parseLoop libc (prog :: opts.flatMap OptArg.render)
          (prog :: opts.flatMap OptArg.render).length 1 defaults = .parsed p ∧
        parseLoop libc (prog :: (opts ++ [o]).flatMap OptArg.render)
          (prog :: (opts ++ [o]).flatMap OptArg.render).length 1 defaults = .parsed q ∧
        (o.flag = 'n' → q.NUMBER_OF_RECTANGLES = libc.atoi o.value ∧
          q.X_LEFT = p.X_LEFT ∧ q.X_RIGHT = p.X_RIGHT) ∧
        (o.flag = 'l' → q.X_LEFT = libc.atof o.value ∧
          q.NUMBER_OF_RECTANGLES = p.NUMBER_OF_RECTANGLES ∧ q.X_RIGHT = p.X_RIGHT) ∧
        (o.flag = 'r' → q.X_RIGHT = libc.atof o.value ∧
          q.NUMBER_OF_RECTANGLES = p.NUMBER_OF_RECTANGLES ∧ q.X_LEFT = p.X_LEFT)) := by
  refine ⟨fun libc prog => parseLoop_no_options libc prog _, ?_⟩
  intro libc prog opts o hwf ho
  have hwf' : ∀ x ∈ opts ++ [o], x.wellFormed := by
    intro x hx
    rcases List.mem_append.mp hx with h | h
    · exact hwf x h
    · rw [List.mem_singleton.mp h]; exact ho
  have hfuel : ∀ l : List OptArg, l.length ≤ (prog :: l.flatMap OptArg.render).length := by
    intro l
    have := length_le_render l
    simp only [List.length_cons]
    omega
  refine ⟨opts.foldl (OptArg.assign libc) defaults,
    (opts ++ [o]).foldl (OptArg.assign libc) defaults,
    parseLoop_wellFormed libc prog opts hwf _ (hfuel opts),
    parseLoop_wellFormed libc prog (opts ++ [o]) hwf' _ (hfuel (opts ++ [o])), ?_⟩
  rw [List.foldl_append, List.foldl_cons, List.foldl_nil]
  obtain ⟨hn, hl, hr⟩ := assign_frame libc (opts.foldl (OptArg.assign libc) defaults) o
  refine ⟨fun h => ?_, fun h => ?_, fun h => ?_⟩
  · rw [hn h]; exact ⟨rfl, rfl, rfl⟩
  · rw [hl h]; exact ⟨rfl, rfl, rfl⟩
  · rw [hr h]; exact ⟨rfl, rfl, rfl⟩

/-- Witness of C11: on `./area.serial -n 5 -r20` the option `-r20`, coming
after `-n 5`, sets `X_RIGHT` and leaves `NUMBER_OF_RECTANGLES = 5` and
`X_LEFT = 0`. -/
theorem C11_defaults_and_option_frame_witness :
    parseLoop ⟨fun _ => 5, fun _ => 20, true⟩ ["./area.serial", "-n", "5", "-r20"] 4 1 defaults =
      .parsed { NUMBER_OF_RECTANGLES := 5, X_LEFT := 0, X_RIGHT := 20 } := by
  obtain ⟨p, q, hp, hq, -, -, hr⟩ := C11_defaults_and_option_frame.2 ⟨fun _ => 5, fun _ => 20, true⟩
    "./area.serial" [OptArg.separate 'n' "5"] (OptArg.attached 'r' "20") (by decide) (by decide)
  have hp' : parseLoop ⟨fun _ => 5, fun _ => 20, true⟩ ["./area.serial", "-n", "5"] 3 1 defaults =
      .parsed { NUMBER_OF_RECTANGLES := 5, X_LEFT := 0, X_RIGHT := 10 } := by
    simp [parseLoop, getopt, switchOpt, optionChars, defaults]
  have hpeq : p = { NUMBER_OF_RECTANGLES := 5, X_LEFT := 0, X_RIGHT := 10 } := by
    have h := hp.symm.trans hp'
    exact ParseResult.parsed.inj h
  obtain ⟨h1, h2, h3⟩ := hr rfl
  have hqeq : q = { NUMBER_OF_RECTANGLES := 5, X_LEFT := 0, X_RIGHT := 20 } := by
    cases q
    simp only [hpeq] at h1 h2 h3
    simp only [Params.mk.injEq]
    exact ⟨h2, h3, h1⟩
  rw [← hqeq]
  exact hq

/-! ## C13: the loops stay inside `our_areas` -/

/-- The block allocated at line 96 has `NUMBER_OF_RECTANGLES` cells. -/
theorem malloc_length (N : Int) (heap : Nat → ℚ) : (malloc N heap).length = N.toNat := by
  simp [malloc]

/-- On a block with at least `count` cells both loops run to their end
without touching a cell outside the block. -/
theorem loops_in_bounds (X W : ℚ) (count : Int) (our_areas : List ℚ)
    (hcells : count.toNat ≤ our_areas.length) :
    ∃ out total, rectangleLoop X W count our_areas = some out ∧
      out.length = our_areas.length ∧ sumLoop count out = some total := by
  obtain ⟨out, hrun, hlen, hlow, -⟩ := rectangle_fold X W count.toNat our_areas hcells
  exact ⟨out, _, hrun, hlen, sum_fold out _ _ hlow⟩

/-- C13: for every total `N ≥ 0`, every `P ≥ 1` and every rank in `[0, P)`,
the count of the process satisfies `0 ≤ OUR_NUMBER_OF_RECTANGLES ≤ N`; hence
every index `i` of the rectangle loop and of the summation loop
(`0 ≤ i < OUR_NUMBER_OF_RECTANGLES`) lies below `N`, the number of cells of
the block allocated for `our_areas`, and both loops run to their end
without an access outside the block. -/
theorem C13_loop_indices_inside_buffer (L R : ℚ) (N P r : Int) (heap : Nat → ℚ)
    (hN : 0 ≤ N) (hP : 1 ≤ P) (h0 : 0 ≤ r) (hr : r < P) :
    (0 ≤ OUR_NUMBER_OF_RECTANGLES N P r ∧ OUR_NUMBER_OF_RECTANGLES N P r ≤ N) ∧
    ((malloc N heap).length : Int) = N ∧
    (∀ i ∈ List.range (OUR_NUMBER_OF_RECTANGLES N P r).toNat, i < (malloc N heap).length) ∧
    (∀ i : Int, 0 ≤ i → i < OUR_NUMBER_OF_RECTANGLES N P r →
      0 ≤ i ∧ i < ((malloc N heap).length : Int)) ∧
    (∃ out total,
      rectangleLoop (OUR_X_LEFT L N P r) (RECTANGLE_WIDTH L R N)
        (OUR_NUMBER_OF_RECTANGLES N P r) (malloc N heap) = some out ∧
      out.length = (malloc N heap).length ∧
      sumLoop (OUR_NUMBER_OF_RECTANGLES N P r) out = some total) := by
  obtain ⟨-, -, hcount, -⟩ := partition_values_in_range hN hP h0 hr
  have hlen : ((malloc N heap).length : Int) = N := by
    rw [malloc_length]; exact Int.toNat_of_nonneg hN
  have hcells : (OUR_NUMBER_OF_RECTANGLES N P r).toNat ≤ (malloc N heap).length := by
    rw [malloc_length]; exact count_le_cells N P r hP
  refine ⟨hcount, hlen, ?_, ?_, loops_in_bounds _ _ _ _ hcells⟩
  · intro i hi
    have := List.mem_range.mp hi
    omega
  · intro i hi0 hi
    exact ⟨hi0, by omega⟩

/-- Witness of C13: seven rectangles over three processes, rank `2`: the
count is `3`, within the `7` cells. -/
theorem C13_loop_indices_inside_buffer_witness :
    (0 ≤ OUR_NUMBER_OF_RECTANGLES 7 3 2 ∧ OUR_NUMBER_OF_RECTANGLES 7 3 2 ≤ 7) ∧
    OUR_NUMBER_OF_RECTANGLES 7 3 2 = 3 ∧
    ∃ out total,
      rectangleLoop (OUR_X_LEFT 0 7 3 2) (RECTANGLE_WIDTH 0 7 7)
        (OUR_NUMBER_OF_RECTANGLES 7 3 2) (malloc 7 (fun _ => 0)) = some out ∧
      out.length = (malloc 7 (fun _ => 0)).length ∧
      sumLoop (OUR_NUMBER_OF_RECTANGLES 7 3 2) out = some total :=
  have h := C13_loop_indices_inside_buffer 0 7 7 3 2 (fun _ => 0) (by decide) (by decide)
    (by decide) (by decide)
  ⟨h.1, by decide, h.2.2.2.2⟩

/-! ## C16: a total of zero or below -/

/-- With a total of zero or below and at least one process, the count of
every rank is zero or below. -/
theorem count_nonpos (N P r : Int) (hN : N ≤ 0) (hP : 1 ≤ P) :
    OUR_NUMBER_OF_RECTANGLES N P r ≤ 0 := by
  rw [OUR_NUMBER_OF_RECTANGLES_eq]
  have hdm := Int.tdiv_add_tmod N P
  have hneg : Int.tdiv N P = -((-N) / P) := by
    have h := Int.neg_tdiv (-N) P
    rw [Int.neg_neg] at h
    rw [h, tdiv_eq_ediv_of_nonneg (by omega) (by omega)]
  have hq0 : 0 ≤ (-N) / P := Int.ediv_nonneg (by omega) (by omega)
  have hm0 : 0 ≤ (-N) % P := Int.emod_nonneg (-N) (by omega)
  have hdm' := Int.ediv_add_emod (-N) P
  rw [hneg] at hdm ⊢
  have hm : Int.tmod N P = -((-N) % P) := by
    have : P * -(-N / P) = -(P * (-N / P)) := by ring
    omega
  split_ifs <;> omega

/-- A rank whose count is zero or below contributes the empty sum. -/
theorem rankSum_of_count_nonpos (L R : ℚ) (N P r : Int)
    (h : OUR_NUMBER_OF_RECTANGLES N P r ≤ 0) : rankSum L R N P r = 0 := by
  have : (OUR_NUMBER_OF_RECTANGLES N P r).toNat = 0 := by omega
  simp [rankSum, this]

/-- C16: for every total `N ≤ 0`, every number of processes `≥ 1` and every
rank, the count of the process is `≤ 0`, so neither loop runs its body (the
rectangle loop leaves the block as it was and evaluates no rectangle), the
process's `our_total_sum` is `0`, and the final total is `0`. -/
theorem C16_nonpositive_total_gives_zero (b : Build) (w : Comm) (L R : ℚ) (N : Int)
    (heap : Int → Nat → ℚ) (hN : N ≤ 0) (hP : 1 ≤ NUMBER_OF_PROCESSES b w) :
    (∀ r : Int,
      OUR_NUMBER_OF_RECTANGLES N (NUMBER_OF_PROCESSES b w) r ≤ 0 ∧
      List.range (OUR_NUMBER_OF_RECTANGLES N (NUMBER_OF_PROCESSES b w) r).toNat = [] ∧
      (∀ (X W : ℚ) (our_areas : List ℚ),
        rectangleLoop X W (OUR_NUMBER_OF_RECTANGLES N (NUMBER_OF_PROCESSES b w) r) our_areas =
          some our_areas) ∧
      (∀ our_areas : List ℚ,
        sumLoop (OUR_NUMBER_OF_RECTANGLES N (NUMBER_OF_PROCESSES b w) r) our_areas = some 0) ∧
      our_total_sum L R N (NUMBER_OF_PROCESSES b w) r (heap r) = some 0) ∧
    the_total_sum b w L R N heap = some 0 := by
  have hcount : ∀ P r : Int, 1 ≤ P → OUR_NUMBER_OF_RECTANGLES N P r ≤ 0 :=
    fun P r h => count_nonpos N P r hN h
  have hzero : ∀ P r : Int, 1 ≤ P → rankSum L R N P r = 0 :=
    fun P r h => rankSum_of_count_nonpos L R N P r (hcount P r h)
  constructor
  · intro r
    have hc := hcount _ r hP
    have ht : (OUR_NUMBER_OF_RECTANGLES N (NUMBER_OF_PROCESSES b w) r).toNat = 0 := by omega
    refine ⟨hc, by rw [ht]; rfl, ?_, ?_, ?_⟩
    · intro X W our_areas
      simp [rectangleLoop, ht]
    · intro our_areas
      simp [sumLoop, ht]
    · rw [our_total_sum_eq L R N _ r hP, hzero _ r hP]
  · cases hb : b.MPI with
    | false => rw [the_total_sum_serial b w L R N heap hb, hzero 1 0 (le_refl 1)]
    | true =>
      have hsize : 1 ≤ w.size := by simpa [NUMBER_OF_PROCESSES, hb] using hP
      by_cases hrank : w.rank = 0
      · rw [the_total_sum_root b w L R N heap hb hrank hsize]
        congr 1
        exact Finset.sum_eq_zero (fun r _ => hzero w.size r hsize)
      · exact the_total_sum_other b w L R N heap hb hrank hsize

/-- Witness of C16: `-n -7` in the `MPI` build with three processes, seen at
the root. -/
theorem C16_nonpositive_total_gives_zero_witness :
    OUR_NUMBER_OF_RECTANGLES (-7) 3 2 = -3 ∧
    our_total_sum 0 10 (-7) 3 2 (fun _ => 0) = some 0 ∧
    the_total_sum ⟨true, true⟩ ⟨0, 3⟩ 0 10 (-7) (fun _ _ => 0) = some 0 :=
  have h := C16_nonpositive_total_gives_zero ⟨true, true⟩ ⟨0, 3⟩ 0 10 (-7) (fun _ _ => 0)
    (by decide) (by decide)
  ⟨by decide, (h.1 2).2.2.2.2, h.2⟩

/-! ## C14: fewer rectangles than processes -/

/-- A rank that holds all `N` rectangles and starts at `L` computes what the
only process of a group of one computes. -/
theorem rankSum_whole_domain (L R : ℚ) (N P r : Int)
    (hcount : OUR_NUMBER_OF_RECTANGLES N P r = N) (hleft : OUR_X_LEFT L N P r = L) :
    rankSum L R N P r = leftRiemannSum FUNC L R N.toNat := by
  have hcount1 : OUR_NUMBER_OF_RECTANGLES N 1 0 = N := by
    simp [OUR_NUMBER_OF_RECTANGLES_eq, Int.tdiv_one, Int.tmod_one]
  have hleft1 : OUR_X_LEFT L N 1 0 = L := by
    simp [OUR_X_LEFT, rankOffset, MY_THREAD_NUM, OUR_NUMBER_OF_THREADS]
  rw [← rankSum_single]
  unfold rankSum
  rw [hcount, hleft, hcount1, hleft1]

/-- With fewer rectangles than processes the quotient is `0` and the remainder
is the total: all ranks but the last get nothing and start at `X_LEFT`, and the
last gets everything and starts at `X_LEFT` too. -/
theorem shares_of_lt {N P : Int} (hN : 0 ≤ N) (hlt : N < P) (L : ℚ) (r : Int) :
    OUR_NUMBER_OF_RECTANGLES N P r = (if r = P - 1 then N else 0) ∧
    OUR_X_LEFT L N P r = L := by
  have hq : Int.tdiv N P = 0 := Int.tdiv_eq_zero_of_lt hN hlt
  have hm : Int.tmod N P = N := Int.tmod_eq_of_lt hN hlt
  rw [OUR_NUMBER_OF_RECTANGLES_eq, OUR_X_LEFT_eq, hq, hm]
  constructor
  · split_ifs <;> simp
  · simp

/-- C14: when `1 ≤ N < P`, every rank other than the last is assigned zero
rectangles and its sum is `0`; the last rank is assigned all `N` rectangles
and its `OUR_X_LEFT` is the left end `L` of the domain; so the total the root
receives is the left Riemann sum over the whole domain, the total of a
single-process run. -/
theorem C14_fewer_rectangles_than_processes (b : Build) (w : Comm) (L R : ℚ) (N : Int)
    (heap : Int → Nat → ℚ) (hN : 1 ≤ N) (hlt : N < w.size) (hb : b.MPI = true)
    (hrank : w.rank = 0) :
    (∀ r : Int, 0 ≤ r → r < w.size → r ≠ w.size - 1 →
      OUR_NUMBER_OF_RECTANGLES N w.size r = 0 ∧
      our_total_sum L R N w.size r (heap r) = some 0) ∧
    OUR_NUMBER_OF_RECTANGLES N w.size (w.size - 1) = N ∧
    OUR_X_LEFT L N w.size (w.size - 1) = L ∧
    the_total_sum b w L R N heap =
      some (∑ i ∈ Finset.range N.toNat,
        (R - L) / (N : ℚ) * FUNC (L + (i : ℚ) * ((R - L) / (N : ℚ)))) ∧
    the_total_sum b w L R N heap = the_total_sum ⟨false, b.SHOW_RESULTS⟩ w L R N heap := by
  have hsize : 1 ≤ w.size := by omega
  have hcast : ((N.toNat : Nat) : ℚ) = (N : ℚ) := by
    have : ((N.toNat : Nat) : Int) = N := Int.toNat_of_nonneg (by omega)
    exact_mod_cast this
  have hother : ∀ r : Int, r ≠ w.size - 1 → OUR_NUMBER_OF_RECTANGLES N w.size r = 0 := by
    intro r hr
    rw [(shares_of_lt (by omega) hlt L r).1, if_neg hr]
  have hlast : OUR_NUMBER_OF_RECTANGLES N w.size (w.size - 1) = N := by
    rw [(shares_of_lt (by omega) hlt L (w.size - 1)).1, if_pos rfl]
  have hleft : OUR_X_LEFT L N w.size (w.size - 1) = L :=
    (shares_of_lt (by omega) hlt L (w.size - 1)).2
  have htotal : the_total_sum b w L R N heap = some (leftRiemannSum FUNC L R N.toNat) := by
    rw [the_total_sum_root b w L R N heap hb hrank hsize]
    obtain ⟨k, hk⟩ : ∃ k : Nat, w.size = (k : Int) + 1 := ⟨(w.size - 1).toNat, by omega⟩
    have hto : w.size.toNat = k + 1 := by omega
    have hklast : ((k : Nat) : Int) = w.size - 1 := by omega
    rw [hto, Finset.sum_range_succ, hklast, rankSum_whole_domain L R N w.size _ hlast hleft]
    have hz : ∑ r ∈ Finset.range k, rankSum L R N w.size (r : Int) = 0 := by
      apply Finset.sum_eq_zero
      intro r hr
      have hrk := Finset.mem_range.mp hr
      exact rankSum_of_count_nonpos L R N w.size r (le_of_eq (hother r (by omega)))
    rw [hz, zero_add]
  refine ⟨?_, hlast, hleft, ?_, ?_⟩
  · intro r _ _ hr
    refine ⟨hother r hr, ?_⟩
    rw [our_total_sum_eq L R N w.size r hsize,
      rankSum_of_count_nonpos L R N w.size r (le_of_eq (hother r hr))]
  · rw [htotal, leftRiemannSum, hcast]
  · rw [htotal, the_total_sum_serial _ w L R N heap rfl, rankSum_single]

/-- Witness of C14: two rectangles on `[0, 4]` over three processes.  The
root receives `2 * 0 + 2 * 4 = 8`, the left Riemann sum. -/
theorem C14_fewer_rectangles_than_processes_witness :
    OUR_NUMBER_OF_RECTANGLES 2 3 0 = 0 ∧ OUR_NUMBER_OF_RECTANGLES 2 3 1 = 0 ∧
    OUR_NUMBER_OF_RECTANGLES 2 3 2 = 2 ∧ OUR_X_LEFT 0 2 3 2 = 0 ∧
    the_total_sum ⟨true, true⟩ ⟨0, 3⟩ 0 4 2 (fun _ _ => 0) = some 8 := by
  have h := C14_fewer_rectangles_than_processes ⟨true, true⟩ ⟨0, 3⟩ 0 4 2 (fun _ _ => 0)
    (by decide) (by decide) rfl rfl
  refine ⟨(h.1 0 (by decide) (by decide) (by decide)).1,
    (h.1 1 (by decide) (by decide) (by decide)).1, h.2.1, h.2.2.1, ?_⟩
  rw [h.2.2.2.1]
  have t2 : Int.toNat 2 = 2 := rfl
  norm_num [t2, Finset.sum_range_succ, FUNC]

/-! ## C15: rectangles of width one -/

/-- Blocks of `q` consecutive indices, one after the other, make up an initial
segment: summing `g` over `k` such blocks is summing it below `k * q`. -/
theorem tile_blocks (g : Nat → ℚ) (q k : Nat) :
    ∑ r ∈ Finset.range k, ∑ i ∈ Finset.range q, g (r * q + i) =
      ∑ j ∈ Finset.range (k * q), g j := by
  induction k with
  | zero => simp
  | succ k ih =>
    rw [Finset.sum_range_succ, ih, Nat.succ_mul, Finset.sum_range_add]

/-- When the domain is as long as there are rectangles, a rectangle is `1`
wide. -/
theorem unit_width (L R : ℚ) (N : Int) (hN : 1 ≤ N) (hw : R - L = (N : ℚ)) :
    RECTANGLE_WIDTH L R N = 1 := by
  have hne : (N : ℚ) ≠ 0 := by
    have : (0 : ℚ) < (N : ℚ) := by exact_mod_cast (show (0 : Int) < N by omega)
    exact ne_of_gt this
  simp [RECTANGLE_WIDTH, MY_THREAD_NUM, hw, hne]

/-- With rectangles of width `1`, rank `r` samples `FUNC` at the points
`L + (r * q + i)` for `i` below its count, `q` being the quotient. -/
theorem rankSum_unit_width (L R : ℚ) (N P : Int) (r q : Nat)
    (hw : RECTANGLE_WIDTH L R N = 1) (hq : Int.tdiv N P = (q : Int)) :
    rankSum L R N P (r : Int) =
      ∑ i ∈ Finset.range (OUR_NUMBER_OF_RECTANGLES N P (r : Int)).toNat,
        FUNC (L + ((r * q + i : Nat) : ℚ)) := by
  unfold rankSum
  rw [hw, OUR_X_LEFT_eq, hq]
  apply Finset.sum_congr rfl
  intro i _
  push_cast
  ring_nf

/-- With rectangles of width `1` the sums of all ranks add up to the left
Riemann sum over the whole domain. -/
theorem sum_rankSum_unit_width (L R : ℚ) (N P : Int) (hN : 1 ≤ N) (hP : 1 ≤ P)
    (hw : R - L = (N : ℚ)) :
    ∑ r ∈ Finset.range P.toNat, rankSum L R N P (r : Int) =
      leftRiemannSum FUNC L R N.toNat := by
  have hw1 := unit_width L R N hN hw
  obtain ⟨k, hk⟩ : ∃ k : Nat, P = (k : Int) + 1 := ⟨(P - 1).toNat, by omega⟩
  have hto : P.toNat = k + 1 := by omega
  obtain ⟨⟨hq0, -⟩, ⟨hm0, -⟩, -, -⟩ :=
    partition_values_in_range (N := N) (P := P) (r := 0) (by omega) hP (le_refl 0) (by omega)
  obtain ⟨q, hq⟩ : ∃ q : Nat, Int.tdiv N P = (q : Int) := ⟨(Int.tdiv N P).toNat, by omega⟩
  obtain ⟨m, hm⟩ : ∃ m : Nat, Int.tmod N P = (m : Int) := ⟨(Int.tmod N P).toNat, by omega⟩
  have hdm := Int.tdiv_add_tmod N P
  rw [hq, hm, hk] at hdm
  have hNnat : N.toNat = k * q + (q + m) := by
    have : ((k : Int) + 1) * (q : Int) = (k : Int) * q + q := by ring
    have h2 : ((k * q + (q + m) : Nat) : Int) = N := by push_cast; omega
    omega
  have hbelow : ∀ r ∈ Finset.range k, rankSum L R N P (r : Int) =
      ∑ i ∈ Finset.range q, FUNC (L + ((r * q + i : Nat) : ℚ)) := by
    intro r hr
    have hrk := Finset.mem_range.mp hr
    have hne : ((r : Nat) : Int) ≠ P - 1 := by omega
    have hc : (OUR_NUMBER_OF_RECTANGLES N P (r : Int)).toNat = q := by
      rw [OUR_NUMBER_OF_RECTANGLES_eq, if_neg hne, hq]; omega
    rw [rankSum_unit_width L R N P r q hw1 hq, hc]
  have hlast : rankSum L R N P (k : Int) =
      ∑ i ∈ Finset.range (q + m), FUNC (L + ((k * q + i : Nat) : ℚ)) := by
    have hc : (OUR_NUMBER_OF_RECTANGLES N P (k : Int)).toNat = q + m := by
      rw [OUR_NUMBER_OF_RECTANGLES_eq, if_pos (by omega), hq, hm]; omega
    rw [rankSum_unit_width L R N P k q hw1 hq, hc]
  rw [hto, Finset.sum_range_succ, Finset.sum_congr rfl hbelow, hlast,
    tile_blocks (fun j => FUNC (L + (j : ℚ))) q k, ← Finset.sum_range_add, ← hNnat]
  unfold leftRiemannSum
  have hcast : ((N.toNat : Nat) : ℚ) = (N : ℚ) := by
    have : ((N.toNat : Nat) : Int) = N := Int.toNat_of_nonneg (by omega)
    exact_mod_cast this
  have hone : (R - L) / ((N.toNat : Nat) : ℚ) = 1 := by
    rw [hcast]
    simpa [RECTANGLE_WIDTH, MY_THREAD_NUM] using hw1
  rw [hone]
  simp

/-- C15: when the rectangle width is exactly `1` (`R - L = N`), for every
`N ≥ 1` and every number of processes `P ≥ 1` the rectangles of the ranks tile
the domain without gap or overlap: rank `r` starts at `L + r * (N / P)`, rank
`0` starts at `L`, every rank but the last ends where the next one starts, and
the last rank ends at `R`; and the total the root receives is the left Riemann
sum over the whole domain, the total of a single-process run. -/
theorem C15_unit_width_tiles_domain (b : Build) (w : Comm) (L R : ℚ) (N : Int)
    (heap : Int → Nat → ℚ) (hN : 1 ≤ N) (hsize : 1 ≤ w.size) (hw : R - L = (N : ℚ))
    (hb : b.MPI = true) (hrank : w.rank = 0) :
    RECTANGLE_WIDTH L R N = 1 ∧
    (∀ r : Int, OUR_X_LEFT L N w.size r = L + (r : ℚ) * ((Int.tdiv N w.size : Int) : ℚ)) ∧
    OUR_X_LEFT L N w.size 0 = L ∧
    (∀ r : Int, 0 ≤ r → r < w.size - 1 →
      OUR_X_LEFT L N w.size r +
          ((OUR_NUMBER_OF_RECTANGLES N w.size r : Int) : ℚ) * RECTANGLE_WIDTH L R N =
        OUR_X_LEFT L N w.size (r + 1)) ∧
    OUR_X_LEFT L N w.size (w.size - 1) +
        ((OUR_NUMBER_OF_RECTANGLES N w.size (w.size - 1) : Int) : ℚ) * RECTANGLE_WIDTH L R N =
      R ∧
    the_total_sum b w L R N heap =
      some (∑ i ∈ Finset.range N.toNat,
        (R - L) / (N : ℚ) * FUNC (L + (i : ℚ) * ((R - L) / (N : ℚ)))) ∧
    the_total_sum b w L R N heap = the_total_sum ⟨false, b.SHOW_RESULTS⟩ w L R N heap := by
  have hw1 := unit_width L R N hN hw
  have hcast : ((N.toNat : Nat) : ℚ) = (N : ℚ) := by
    have : ((N.toNat : Nat) : Int) = N := Int.toNat_of_nonneg (by omega)
    exact_mod_cast this
  have htotal : the_total_sum b w L R N heap = some (leftRiemannSum FUNC L R N.toNat) := by
    rw [the_total_sum_root b w L R N heap hb hrank hsize,
      sum_rankSum_unit_width L R N w.size hN hsize hw]
  refine ⟨hw1, fun r => OUR_X_LEFT_eq L N w.size r, ?_, ?_, ?_, ?_, ?_⟩
  · rw [OUR_X_LEFT_eq]; simp
  · intro r _ hr
    have hne : r ≠ w.size - 1 := by omega
    rw [hw1, OUR_X_LEFT_eq, OUR_X_LEFT_eq, OUR_NUMBER_OF_RECTANGLES_eq, if_neg hne]
    push_cast
    ring
  · have hdm : (w.size : ℚ) * ((Int.tdiv N w.size : Int) : ℚ) + ((Int.tmod N w.size : Int) : ℚ) =
        (N : ℚ) := by
      exact_mod_cast Int.tdiv_add_tmod N w.size
    rw [hw1, OUR_X_LEFT_eq, OUR_NUMBER_OF_RECTANGLES_eq, if_pos rfl]
    push_cast
    linarith
  · rw [htotal, leftRiemannSum, hcast]
  · rw [htotal, the_total_sum_serial _ w L R N heap rfl, rankSum_single]

/-- Witness of C15: the defaults (`10` rectangles on `[0, 10]`) over three
processes: the ranks start at `0`, `3`, `6`, hold `3`, `3`, `4` rectangles, and
the root receives `285`. -/
theorem C15_unit_width_tiles_domain_witness :
    [(0 : Int), 1, 2].map (OUR_X_LEFT 0 10 3) = [0, 3, 6] ∧
    [(0 : Int), 1, 2].map (OUR_NUMBER_OF_RECTANGLES 10 3) = [3, 3, 4] ∧
    the_total_sum ⟨true, true⟩ ⟨0, 3⟩ 0 10 10 (fun _ _ => 0) = some 285 := by
  have h := C15_unit_width_tiles_domain ⟨true, true⟩ ⟨0, 3⟩ 0 10 10 (fun _ _ => 0)
    (by decide) (by decide) (by norm_num) rfl rfl
  have hq : Int.tdiv 10 3 = 3 := by decide
  refine ⟨?_, by decide, ?_⟩
  · simp only [List.map, h.2.1, hq]
    norm_num
  · rw [h.2.2.2.2.2.1]
    have t10 : Int.toNat 10 = 10 := rfl
    norm_num [t10, Finset.sum_range_succ, FUNC]

end Area
